import Mathlib

/-!
Verification of the graph_plan planner (`src/graph_plan/planner.py`) against its
specification.  The planner's data model and operations are embedded shallowly:
Python sets become `Finset`, lists stay lists, dictionaries mapping a key to a
set become symmetric finite sets of ordered pairs, and the unbounded driver
loop of `Planner.plan` receives explicit fuel.  The two places where the Python
source is nondeterministic (iteration over hash sets when generating no-op
actions and when listing an action set) are determinized by sorting
propositions; this affects only the order of equal-content collections.
-/

namespace GraphPlan

/-- Proposition labels are strings, as in the source (`PropositionLabel = str`). -/
abbrev PropositionLabel := String

/-- An action: an immutable record of name, requirements and effects
(`class Action` in the source). -/
structure Action where
  name : String
  requirements : Finset PropositionLabel
  effects : Finset PropositionLabel
deriving DecidableEq

/-- The no-op action of a proposition (`Action.noop_action`). -/
def noop_action (proposition : PropositionLabel) : Action :=
  { name := "noop_" ++ proposition
    requirements := {proposition}
    effects := {proposition} }

/-- A layer of the planning graph (`class Layer`).  The source stores the two
mutex relations as dictionaries from an element to the set of its partners and
always inserts both directions; here they are the corresponding sets of ordered
pairs. -/
structure Layer where
  actions : List Action
  propositions : Finset PropositionLabel
  mutex_actions : Finset (Action × Action)
  mutex_propositions : Finset (PropositionLabel × PropositionLabel)
deriving DecidableEq

/-- The character sequence of the literal part of the pattern
`([^_]*)__unset` used by `_is_action_mutex.opposite_effect`. -/
def unsetChars : List Char := ['_', '_', 'u', 'n', 's', 'e', 't']

/-- Scan modelling `re.search(r'([^_]*)__unset', s)`.  A match can only start
with its `__unset` part at an underscore, and the captured group is the maximal
underscore-free run immediately before that underscore; the scan keeps that run
reversed in `acc` and restarts after any underscore that does not begin the
literal `__unset`. -/
def unsetSearch (acc : List Char) : List Char → Option (List Char)
  | [] => none
  | c :: rest =>
    if c = '_' then
      if unsetChars.isPrefixOf (c :: rest) then some acc.reverse
      else unsetSearch [] rest
    else unsetSearch (c :: acc) rest

/-- Model of `opposite_effect` inside `GraphBuilder._is_action_mutex`,
including the regex search semantics: if the pattern does not occur the suffix
`__unset` is appended, otherwise the captured group is returned. -/
def opposite_effect (effect : String) : String :=
  match unsetSearch [] effect.data with
  | none => effect ++ "__unset"
  | some grp => ⟨grp⟩



/-- Lexicographic comparison of character lists by code point, matching the
order in which Python sorts the string labels. -/
def charListLe : List Char → List Char → Bool
  | [], _ => true
  | _ :: _, [] => false
  | a :: as, b :: bs =>
    if a.toNat = b.toNat then charListLe as bs else decide (a.toNat < b.toNat)

/-- Lexicographic comparison of strings by code point. -/
def strLe (a b : String) : Bool := charListLe a.data b.data

def charListLe_refl : ∀ l : List Char, charListLe l l = true
  | [] => rfl
  | _ :: as => by simpa [charListLe] using charListLe_refl as

def charListLe_total : ∀ a b : List Char, charListLe a b = true ∨ charListLe b a = true
  | [], _ => Or.inl rfl
  | _ :: _, [] => Or.inr rfl
  | a :: as, b :: bs => by
    by_cases hab : a.toNat = b.toNat
    · simpa [charListLe, hab] using charListLe_total as bs
    · rcases Nat.lt_or_ge a.toNat b.toNat with h | h
      · exact Or.inl (by simp only [charListLe, if_neg hab]; exact decide_eq_true h)
      · have hlt : b.toNat < a.toNat := lt_of_le_of_ne h (fun e => hab e.symm)
        refine Or.inr ?_
        simp only [charListLe, if_neg (Ne.symm hab)]
        exact decide_eq_true hlt

def char_eq_of_toNat_eq {a b : Char} (h : a.toNat = b.toNat) : a = b :=
  Char.ext_iff.mpr (UInt32.ext h)

def charListLe_antisymm : ∀ a b : List Char,
    charListLe a b = true → charListLe b a = true → a = b
  | [], [], _, _ => rfl
  | [], _ :: _, _, h => by simp [charListLe] at h
  | _ :: _, [], h, _ => by simp [charListLe] at h
  | a :: as, b :: bs, h1, h2 => by
    by_cases hab : a.toNat = b.toNat
    · have ha : a = b := char_eq_of_toNat_eq hab
      subst ha
      simp only [charListLe, if_pos rfl] at h1 h2
      exact congrArg (a :: ·) (charListLe_antisymm as bs h1 h2)
    · simp only [charListLe, if_neg hab] at h1
      simp only [charListLe, if_neg (Ne.symm hab)] at h2
      exact absurd (Nat.lt_trans (of_decide_eq_true h1) (of_decide_eq_true h2))
        (Nat.lt_irrefl _)

def charListLe_trans : ∀ a b c : List Char,
    charListLe a b = true → charListLe b c = true → charListLe a c = true
  | [], _, _, _, _ => rfl
  | _ :: _, [], _, h, _ => by simp [charListLe] at h
  | _ :: _, _ :: _, [], _, h => by simp [charListLe] at h
  | a :: as, b :: bs, c :: cs, h1, h2 => by
    by_cases hab : a.toNat = b.toNat <;> by_cases hbc : b.toNat = c.toNat
    · simp only [charListLe, if_pos hab, if_pos hbc, if_pos (hab.trans hbc)] at h1 h2 ⊢
      exact charListLe_trans as bs cs h1 h2
    · have hac : ¬ a.toNat = c.toNat := fun e => hbc (hab ▸ e)
      simp only [charListLe, if_pos hab, if_neg hbc] at h2
      simp only [charListLe, if_neg hac]
      exact (hab ▸ h2)
    · have hac : ¬ a.toNat = c.toNat := fun e => hab (hbc ▸ e)
      simp only [charListLe, if_neg hab, if_pos hbc] at h1
      simp only [charListLe, if_neg hac]
      exact (hbc ▸ h1)
    · simp only [charListLe, if_neg hab, if_neg hbc] at h1 h2
      have h3 := Nat.lt_trans (of_decide_eq_true h1) (of_decide_eq_true h2)
      simp only [charListLe, if_neg (Nat.ne_of_lt h3)]
      exact decide_eq_true h3

/-- The Prop form of `strLe`, used as the sorting relation. -/
def strLeP (a b : String) : Prop := strLe a b = true

instance : DecidableRel strLeP := fun a b => instDecidableEqBool (strLe a b) true

instance : IsTotal String strLeP := ⟨fun a b => charListLe_total a.data b.data⟩

instance : IsTrans String strLeP := ⟨fun a b c => charListLe_trans a.data b.data c.data⟩

instance : IsAntisymm String strLeP :=
  ⟨fun a b h1 h2 => by
    have h := charListLe_antisymm a.data b.data h1 h2
    cases a
    cases b
    exact congrArg String.mk h⟩

instance : IsRefl String strLeP := ⟨fun a => charListLe_refl a.data⟩

/-- Enumerate a finite set of labels in ascending code-point order, the order
in which Python's `sorted` lists them; it also stands in for the source's
set-iteration order where only set equality of the results matters. -/
def sortedList (s : Finset PropositionLabel) : List PropositionLabel :=
  Quot.liftOn s.val (fun l => l.insertionSort strLeP)
    (fun a b h => List.eq_of_perm_of_sorted
      (((List.perm_insertionSort strLeP a).trans h).trans
        (List.perm_insertionSort strLeP b).symm)
      (List.sorted_insertionSort strLeP a) (List.sorted_insertionSort strLeP b))

/-- The set a symmetric pair-set associates to `p`, i.e. the source's
`mutex_dict.get(p, set())`. -/
def mutexOf (mp : Finset (PropositionLabel × PropositionLabel)) (p : PropositionLabel) :
    Finset PropositionLabel :=
  (mp.filter fun pq => pq.1 = p).image Prod.snd

/-- Model of `GraphBuilder._is_action_mutex`: inconsistent effects,
interference, or requirements that were proposition-mutex in the previous
layer. -/
def is_action_mutex (mutex_propositions : Finset (PropositionLabel × PropositionLabel))
    (action_a action_b : Action) : Bool :=
  let delete_effects := action_a.effects.image opposite_effect
  if (delete_effects ∩ action_b.effects).Nonempty then true
  else if (delete_effects ∩ action_b.requirements).Nonempty then true
  else decide (((action_a.requirements.biUnion fun p => mutexOf mutex_propositions p) ∩
      action_b.requirements).Nonempty)

/-- All pairs of list elements at positions i < j, in enumeration order
(`itertools.combinations(l, 2)`). -/
def combPairs {α : Type} : List α → List (α × α)
  | [] => []
  | a :: rest => (rest.map fun b => (a, b)) ++ combPairs rest

/-- All pairs of list elements at distinct positions
(`itertools.permutations(l, 2)`).  CPython enumerates these pairs in a
different order, but the callers below only accumulate a set over all of them,
so only the collection of visited pairs matters. -/
def permPairs {α : Type} (l : List α) : List (α × α) :=
  combPairs l ++ (combPairs l).map fun p => (p.2, p.1)

/-- Core of `GraphBuilder._calculate_actions_mutex`: check every ordered pair
of distinct positions and record each mutex pair in both directions, given the
previous layer's proposition-mutex relation. -/
def actions_mutex_from
    (mutex_propositions : Finset (PropositionLabel × PropositionLabel))
    (possible_actions : List Action) : Finset (Action × Action) :=
  (permPairs possible_actions).foldr
    (fun ab acc =>
      if is_action_mutex mutex_propositions ab.1 ab.2 then
        insert (ab.1, ab.2) (insert (ab.2, ab.1) acc)
      else acc) ∅

/-- Model of `GraphBuilder._calculate_actions_mutex`; the source receives the
whole previous layer but reads only its `mutex_propositions`. -/
def calculate_actions_mutex (previous_state : Layer) (possible_actions : List Action) :
    Finset (Action × Action) :=
  actions_mutex_from previous_state.mutex_propositions possible_actions

/-- Producer list of a proposition: the actions of the list whose effects
contain it, in list order (the source's `prop_actions[p]`). -/
def producers (actions : List Action) (p : PropositionLabel) : List Action :=
  actions.filter fun a => decide (p ∈ a.effects)

/-- Model of `GraphBuilder._calculate_propositions`: the union of all new
actions' effects. -/
def calculate_propositions (actions : List Action) : Finset PropositionLabel :=
  actions.foldr (fun a acc => a.effects ∪ acc) ∅

/-- The distinct propositions produced by the action list (the keys of the
source's `prop_actions` dictionary); only its set of elements is used by the
callers, so the sorted-effect enumeration order is immaterial. -/
def producedList (actions : List Action) : List PropositionLabel :=
  (actions.flatMap fun a => sortedList a.effects).dedup

/-- Model of `GraphBuilder._calculate_propositions_mutex`: two produced
propositions are mutex when every producer of one is mutex with every producer
of the other; each mutex pair is recorded in both directions. -/
def calculate_propositions_mutex (actions : List Action)
    (mutex_actions : Finset (Action × Action)) :
    Finset (PropositionLabel × PropositionLabel) :=
  (combPairs (producedList actions)).foldr
    (fun pq acc =>
      if (producers actions pq.1).all fun a =>
          (producers actions pq.2).all fun b => decide ((a, b) ∈ mutex_actions) then
        insert (pq.1, pq.2) (insert (pq.2, pq.1) acc)
      else acc) ∅

/-- Model of `GraphBuilder._calculate_actions`: one no-op per proposition of
the current layer (in sorted order, standing in for the source's set-iteration
order), followed by the domain actions whose requirements are met, in the
given order. -/
def calculate_actions (current_state : Layer) (available_actions : List Action) :
    List Action :=
  ((sortedList current_state.propositions).map noop_action) ++
    available_actions.filter fun a => decide (a.requirements ⊆ current_state.propositions)

/-- Model of `GraphBuilder.calculate_next_layer`. -/
def calculate_next_layer (current_state : Layer) (available_actions : List Action) : Layer :=
  let next_actions := calculate_actions current_state available_actions
  let mutex_actions := calculate_actions_mutex current_state next_actions
  { actions := next_actions
    propositions := calculate_propositions next_actions
    mutex_actions := mutex_actions
    mutex_propositions := calculate_propositions_mutex next_actions mutex_actions }

/-- The synthetic layer 0 seeded by `Planner.plan`. -/
def layer0 (state : Finset PropositionLabel) : Layer :=
  { actions := [], propositions := state, mutex_actions := ∅, mutex_propositions := ∅ }

/-- One step of the proposition-mutex recurrence once the action list is
stable: the proposition-mutex relation computed from the action-mutex relation
that a given proposition-mutex relation induces. -/
def mutexStep (acts : List Action)
    (mp : Finset (PropositionLabel × PropositionLabel)) :
    Finset (PropositionLabel × PropositionLabel) :=
  calculate_propositions_mutex acts (actions_mutex_from mp acts)

/-- The sequence of layers the driver of `Planner.plan` builds: layer 0 is the
synthetic initial layer and each next layer extends the previous one. -/
def layerSeq (state : Finset PropositionLabel) (available_actions : List Action) :
    Nat → Layer
  | 0 => layer0 state
  | n + 1 => calculate_next_layer (layerSeq state available_actions n) available_actions

/-- Model of `GraphSolver._plan_goal_reached`: every goal proposition is in the
layer and no goal proposition is proposition-mutex with another goal
proposition. -/
def plan_goal_reached (layer : Layer) (goal : Finset PropositionLabel) : Bool :=
  decide (goal ⊆ layer.propositions) &&
    ! decide (∃ p ∈ goal, (goal ∩ mutexOf layer.mutex_propositions p).Nonempty)

/-- Model of `GraphSolver._plan_is_stalled`.  The layer stack is kept deepest
first, so Python's `layers[-1] == layers[-2]` compares the first two entries. -/
def plan_is_stalled : List Layer → Bool
  | a :: b :: _ => decide (a = b)
  | _ => false

/-- Model of `GraphSolver._goal_is_action_set_mutex`: some pair of members of
the list (at positions i < j) is in the mutex relation. -/
def goal_is_action_set_mutex (action_mutex : Finset (Action × Action)) :
    List Action → Bool
  | [] => false
  | a :: rest => (rest.any fun b => decide ((a, b) ∈ action_mutex)) ||
      goal_is_action_set_mutex action_mutex rest

/-- Cartesian product of a list of lists, as `itertools.product` (the first
list varies slowest). -/
def listProduct {α : Type} : List (List α) → List (List α)
  | [] => [[]]
  | xs :: rest => xs.flatMap fun x => (listProduct rest).map fun t => x :: t

/-- The candidate tuples enumerated by `GraphSolver._goal_search_actions`: the
product of the producer lists of the goal propositions in sorted order,
before mutex filtering and deduplication. -/
def goal_search_tuples (layer : Layer) (goal : Finset PropositionLabel) :
    List (List Action) :=
  listProduct ((sortedList goal).map fun g => producers layer.actions g)

/-- Model of `GraphSolver._goal_calculate_subgoal`: the union of the chosen
actions' requirements. -/
def goal_calculate_subgoal (actions : List Action) : Finset PropositionLabel :=
  actions.foldr (fun a acc => a.requirements ∪ acc) ∅

/-- Result of the recursive backward search: a plan, the `PlanNotFound`
signal, or the `PlanNotPossible` error. -/
inductive SearchResult where
  | found (actions : List Action)
  | notFound
  | notPossible
deriving DecidableEq

/-- The candidate loop inside `GraphSolver.search_for_solution`: deduplicate
each tuple (Python's `set(action_set)`), skip internally-mutex sets, recurse on
the subgoal through `recur`; `notFound` from the recursion means try the next
tuple, success appends the chosen actions, and `notPossible` propagates. -/
def searchCandidates (action_mutex : Finset (Action × Action))
    (recur : Finset PropositionLabel → SearchResult) :
    List (List Action) → SearchResult
  | [] => .notFound
  | t :: rest =>
    let c := t.dedup
    if goal_is_action_set_mutex action_mutex c then
      searchCandidates action_mutex recur rest
    else
      match recur (goal_calculate_subgoal c) with
      | .found sub => .found (sub ++ c)
      | .notFound => searchCandidates action_mutex recur rest
      | .notPossible => .notPossible

/-- Model of `GraphSolver.search_for_solution`.  The layer stack is kept
deepest first, so Python's `layers[:-1]` is the tail.  The source indexes
`layers[-1]` unconditionally and would fault on an empty stack with a
non-empty goal; that case is unreachable from `Planner.plan` and is mapped to
`notFound` here. -/
def search_for_solution : List Layer → Finset PropositionLabel → SearchResult
  | [], goal => if goal = ∅ then .found [] else .notFound
  | current :: rest, goal =>
    if goal = ∅ then .found []
    else if plan_is_stalled (current :: rest) then .notPossible
    else if ! plan_goal_reached current goal then .notFound
    else if current.actions = [] then .found []
    else searchCandidates current.mutex_actions
      (fun g => search_for_solution rest g)
      (goal_search_tuples current goal)

/-- Outcome of `Planner.plan`: a plan, or the `PlanNotPossible` error. -/
inductive PlanOutcome where
  | success (actions : List Action)
  | notPossible
deriving DecidableEq

/-- Model of the `action.name.startswith('noop_')` filter at the end of
`Planner.plan`. -/
def isNoopName (s : String) : Bool := decide (s.data.take 5 = "noop_".data)

/-- The driver loop of `Planner.plan`, with explicit fuel; `none` means the
fuel ran out before the loop settled (the source's loop has no bound).  The
layer stack is `current :: rest`, deepest first. -/
def planLoop (available_actions : List Action) (goal : Finset PropositionLabel) :
    Nat → Layer → List Layer → Option PlanOutcome
  | 0, _, _ => none
  | fuel + 1, current, rest =>
    let next := calculate_next_layer current available_actions
    match search_for_solution (next :: current :: rest) goal with
    | .found p => some (.success p)
    | .notPossible => some .notPossible
    | .notFound => planLoop available_actions goal fuel next (current :: rest)

/-- Model of `Planner.plan`, with explicit fuel for the unbounded driver loop:
`some (.success p)` and `some .notPossible` are the source's two outcomes, and
`none` means the fuel ran out with the loop still running. -/
def plan (fuel : Nat) (state goal : Finset PropositionLabel)
    (available_actions : List Action) : Option PlanOutcome :=
  match planLoop available_actions goal fuel (layer0 state) [] with
  | some (.success p) => some (.success (p.filter fun a => ! isNoopName a.name))
  | some .notPossible => some .notPossible
  | none => none

/-- Model of `Planner.plan_state_update`. -/
def plan_state_update (fuel : Nat) (state update : Finset PropositionLabel)
    (available_actions : List Action) : Option PlanOutcome :=
  let plan_props := available_actions.foldr
    (fun a acc => a.requirements ∪ a.effects ∪ acc) ∅
  let filtered_state := state.filter fun p => p ∈ plan_props
  let dependent_effects := available_actions.foldr
    (fun a acc => if (update ∩ a.requirements).Nonempty then a.effects ∪ acc else acc) ∅
  let invalidated := update ∪ dependent_effects
  plan fuel (filtered_state \ invalidated) filtered_state available_actions

/-- The intended opposite of a proposition label per the specification:
`X` maps to `X__unset` and `X__unset` maps back to `X`. -/
def spec_opposite (p : PropositionLabel) : PropositionLabel :=
  if "__unset".data.isSuffixOf p.data then ⟨p.data.take (p.data.length - 7)⟩
  else p ++ "__unset"

/-- The specification's delete set of an effect set:
`delete(E) = { opposite(e) | e in E }`. -/
def spec_delete (effects : Finset PropositionLabel) : Finset PropositionLabel :=
  effects.image spec_opposite

/-- The specification's action-mutex condition for the ordered pair `(a, b)`:
inconsistent effects, interference, or competing needs (requirements that are
proposition-mutex in the previous layer). -/
def spec_action_mutex_cond (previous_state : Layer) (a b : Action) : Prop :=
  (spec_delete a.effects ∩ b.effects).Nonempty ∨
    (spec_delete a.effects ∩ b.requirements).Nonempty ∨
    ∃ p ∈ a.requirements, ∃ q ∈ b.requirements, (p, q) ∈ previous_state.mutex_propositions

instance (previous_state : Layer) (a b : Action) :
    Decidable (spec_action_mutex_cond previous_state a b) := by
  unfold spec_action_mutex_cond
  infer_instance

/-- A label of the shape the specification's opposite-map assumes: either free
of underscores, or an underscore-free base followed by the `__unset` suffix. -/
def wellFormedLabel (s : String) : Prop :=
  (∀ c ∈ s.data, c ≠ '_') ∨
    (s.data = s.data.take (s.data.length - 7) ++ unsetChars ∧
      ∀ c ∈ s.data.take (s.data.length - 7), c ≠ '_')

instance (s : String) : Decidable (wellFormedLabel s) := by
  unfold wellFormedLabel
  infer_instance

/-- Application of an action to a world state per the specification's
execution semantics: effects are added and each effect's opposite removed. -/
def applyAction (state : Finset PropositionLabel) (a : Action) : Finset PropositionLabel :=
  (state \ a.effects.image spec_opposite) ∪ a.effects

/-- Execution of an action sequence per the specification's soundness clause:
every action's requirements must hold when it fires (`none` otherwise), and
each step applies the action's effects. -/
def execState : Finset PropositionLabel → List Action → Option (Finset PropositionLabel)
  | s, [] => some s
  | s, a :: rest => if a.requirements ⊆ s then execState (applyAction s a) rest else none



/-- Concrete action used to exercise the opposite-label handling: it asserts
the negation of the underscored label `a_b`. -/
def cxA : Action := { name := "cxA", requirements := ∅, effects := {"a_b__unset"} }

/-- Concrete action producing the underscored label `a_b`. -/
def cxB : Action := { name := "cxB", requirements := ∅, effects := {"a_b"} }

/-- Concrete action for the soundness analysis: consumes `p_q`, asserts the
negation of `r_s` and the goal label `gA`. -/
def actA : Action := { name := "actA", requirements := {"p_q"}, effects := {"r_s__unset", "gA"} }

/-- Concrete action for the soundness analysis: consumes `r_s`, asserts the
negation of `p_q` and the goal label `gB`. -/
def actB : Action := { name := "actB", requirements := {"r_s"}, effects := {"p_q__unset", "gB"} }

/-- Concrete action asserting the negation of the underscored label `a_b`,
used for the completeness analysis. -/
def mkAB : Action := { name := "mk_ab_unset", requirements := ∅, effects := {"a_b__unset"} }

/-- Concrete action producing the plain label `b`, used for the completeness
analysis. -/
def mkB : Action := { name := "mk_b", requirements := ∅, effects := {"b"} }

/-- Concrete action whose effect depends on the update label, used for the
state-update analysis. -/
def depAct : Action := { name := "dep", requirements := {"u0"}, effects := {"s0"} }

/-- Concrete action asserting the negation of `x`, with well-formed labels. -/
def unsetX : Action := { name := "unset_x", requirements := ∅, effects := {"x__unset"} }

/-!  Characterizations of the embedded operations.  -/

theorem mem_sortedList {s : Finset PropositionLabel} {x : PropositionLabel} :
    x ∈ sortedList s ↔ x ∈ s := by
  rcases s with ⟨m, hm⟩
  induction m using Quotient.inductionOn with
  | h l =>
    show x ∈ l.insertionSort strLeP ↔ _
    rw [(List.perm_insertionSort strLeP l).mem_iff]
    simp [Finset.mem_mk]

theorem sortedList_nodup (s : Finset PropositionLabel) : (sortedList s).Nodup := by
  rcases s with ⟨m, hm⟩
  induction m using Quotient.inductionOn with
  | h l =>
    show (l.insertionSort strLeP).Nodup
    exact ((List.perm_insertionSort strLeP l).nodup_iff).mpr (Multiset.coe_nodup.mp hm)

theorem isPrefixOf_length_le : ∀ (l1 l2 : List Char),
    l1.isPrefixOf l2 = true → l1.length ≤ l2.length := by
  intro l1
  induction l1 with
  | nil => intro l2 _; exact Nat.zero_le _
  | cons a as ih =>
    intro l2 h
    cases l2 with
    | nil => simp [List.isPrefixOf] at h
    | cons b bs =>
      simp only [List.isPrefixOf, Bool.and_eq_true] at h
      have := ih bs h.2
      simp only [List.length_cons]
      omega

theorem unsetSearch_length : ∀ (l acc : List Char) (g : List Char),
    unsetSearch acc l = some g → g.length + 7 ≤ acc.length + l.length := by
  intro l
  induction l with
  | nil => intro acc g h; simp [unsetSearch] at h
  | cons c rest ih =>
    intro acc g h
    by_cases hc : c = '_'
    · subst hc
      simp only [unsetSearch, if_pos rfl] at h
      by_cases hp : unsetChars.isPrefixOf ('_' :: rest) = true
      · rw [if_pos hp] at h
        have hg : g = acc.reverse := by
          cases h
          rfl
        have hlen : unsetChars.length ≤ ('_' :: rest).length :=
          isPrefixOf_length_le _ _ hp
        subst hg
        simp only [List.length_reverse, List.length_cons]
        simp only [unsetChars, List.length_cons, List.length_nil] at hlen
        omega
      · rw [if_neg hp] at h
        have := ih [] g h
        simp only [List.length_nil, List.length_cons] at this ⊢
        omega
    · simp only [unsetSearch, if_neg hc] at h
      have := ih (c :: acc) g h
      simp only [List.length_cons] at this ⊢
      omega

theorem opposite_effect_ne (s : PropositionLabel) : opposite_effect s ≠ s := by
  unfold opposite_effect
  cases h : unsetSearch [] s.data with
  | none =>
    intro e
    have := congrArg (fun t : String => t.data.length) e
    simp only [String.data_append, List.length_append] at this
    have h7 : ("__unset").data.length = 7 := rfl
    rw [h7] at this
    omega
  | some g =>
    intro e
    have hlen := unsetSearch_length s.data [] g h
    have := congrArg (fun t : String => t.data.length) e
    simp only [List.length_nil] at hlen
    simp only at this
    omega

theorem mem_mutexOf {mp : Finset (PropositionLabel × PropositionLabel)}
    {p q : PropositionLabel} : q ∈ mutexOf mp p ↔ (p, q) ∈ mp := by
  simp only [mutexOf, Finset.mem_image, Finset.mem_filter]
  constructor
  · rintro ⟨⟨x, y⟩, ⟨hm, hx⟩, hy⟩
    simp only at hx hy
    subst hx
    subst hy
    exact hm
  · intro h
    exact ⟨(p, q), ⟨h, rfl⟩, rfl⟩

theorem is_action_mutex_iff (mp : Finset (PropositionLabel × PropositionLabel))
    (a b : Action) :
    is_action_mutex mp a b = true ↔
      ((a.effects.image opposite_effect ∩ b.effects).Nonempty ∨
       (a.effects.image opposite_effect ∩ b.requirements).Nonempty ∨
       ∃ p ∈ a.requirements, ∃ q ∈ b.requirements, (p, q) ∈ mp) := by
  simp only [is_action_mutex]
  split_ifs with h1 h2
  · simp [h1]
  · simp [h2, h1]
  · simp only [decide_eq_true_eq]
    constructor
    · rintro ⟨x, hx⟩
      rw [Finset.mem_inter, Finset.mem_biUnion] at hx
      obtain ⟨⟨p, hp, hpm⟩, hxb⟩ := hx
      exact Or.inr (Or.inr ⟨p, hp, x, hxb, mem_mutexOf.mp hpm⟩)
    · rintro (h | h | ⟨p, hp, q, hq, hpq⟩)
      · exact absurd h h1
      · exact absurd h h2
      · exact ⟨q, Finset.mem_inter.mpr ⟨Finset.mem_biUnion.mpr ⟨p, hp, mem_mutexOf.mpr hpq⟩, hq⟩⟩

theorem mem_combPairs_left {α : Type} : ∀ {l : List α} {x y : α},
    (x, y) ∈ combPairs l → x ∈ l ∧ y ∈ l := by
  intro l
  induction l with
  | nil => intro x y h; simp [combPairs] at h
  | cons a rest ih =>
    intro x y h
    simp only [combPairs, List.mem_append, List.mem_map] at h
    rcases h with ⟨b, hb, he⟩ | h
    · cases he
      exact ⟨List.mem_cons_self .., List.mem_cons_of_mem _ hb⟩
    · obtain ⟨hx, hy⟩ := ih h
      exact ⟨List.mem_cons_of_mem _ hx, List.mem_cons_of_mem _ hy⟩

theorem combPairs_mem_of_mem {α : Type} : ∀ {l : List α} {x y : α},
    x ∈ l → y ∈ l → x ≠ y → (x, y) ∈ combPairs l ∨ (y, x) ∈ combPairs l := by
  intro l
  induction l with
  | nil => intro x y hx; simp at hx
  | cons a rest ih =>
    intro x y hx hy hxy
    simp only [combPairs, List.mem_append, List.mem_map]
    rcases List.mem_cons.mp hx with hxa | hxr
    · subst hxa
      have hyr : y ∈ rest := by
        rcases List.mem_cons.mp hy with h | h
        · exact absurd h.symm hxy
        · exact h
      exact Or.inl (Or.inl ⟨y, hyr, rfl⟩)
    · rcases List.mem_cons.mp hy with hya | hyr
      · subst hya
        exact Or.inr (Or.inl ⟨x, hxr, rfl⟩)
      · rcases ih hxr hyr hxy with h | h
        · exact Or.inl (Or.inr h)
        · exact Or.inr (Or.inr h)

theorem not_mem_combPairs_self {α : Type} : ∀ {l : List α}, l.Nodup → ∀ x : α,
    (x, x) ∉ combPairs l := by
  intro l
  induction l with
  | nil => intro _ x h; simp [combPairs] at h
  | cons a rest ih =>
    intro hnd x h
    simp only [combPairs, List.mem_append, List.mem_map] at h
    rcases h with ⟨b, hb, he⟩ | h
    · obtain ⟨h1, h2⟩ := Prod.mk.injEq .. ▸ he
      exact (List.nodup_cons.mp hnd).1 (h1 ▸ h2 ▸ hb)
    · exact ih (List.nodup_cons.mp hnd).2 x h

theorem combPairs_cons {α : Type} (a : α) (rest : List α) (ab : α × α) :
    ab ∈ combPairs (a :: rest) ↔ (∃ b ∈ rest, ab = (a, b)) ∨ ab ∈ combPairs rest := by
  simp only [combPairs, List.mem_append, List.mem_map]
  constructor
  · rintro (⟨b, hb, he⟩ | h)
    · exact Or.inl ⟨b, hb, he.symm⟩
    · exact Or.inr h
  · rintro (⟨b, hb, he⟩ | h)
    · exact Or.inl ⟨b, hb, he.symm⟩
    · exact Or.inr h

theorem mem_combPairs_append {α : Type} : ∀ {l1 l2 : List α} {ab : α × α},
    ab ∈ combPairs (l1 ++ l2) ↔
      ab ∈ combPairs l1 ∨ ab ∈ combPairs l2 ∨ (ab.1 ∈ l1 ∧ ab.2 ∈ l2) := by
  intro l1
  induction l1 with
  | nil => intro l2 ab; simp [combPairs]
  | cons a rest ih =>
    intro l2 ab
    rw [List.cons_append, combPairs_cons, ih, combPairs_cons]
    constructor
    · rintro (⟨b, hb, he⟩ | h | h | ⟨h1, h2⟩)
      · rcases List.mem_append.mp hb with hbl | hbr
        · exact Or.inl (Or.inl ⟨b, hbl, he⟩)
        · subst he
          exact Or.inr (Or.inr ⟨List.mem_cons_self _ _, hbr⟩)
      · exact Or.inl (Or.inr h)
      · exact Or.inr (Or.inl h)
      · exact Or.inr (Or.inr ⟨List.mem_cons_of_mem _ h1, h2⟩)
    · rintro ((⟨b, hb, he⟩ | h) | h | ⟨h1, h2⟩)
      · exact Or.inl ⟨b, List.mem_append_left _ hb, he⟩
      · exact Or.inr (Or.inl h)
      · exact Or.inr (Or.inr (Or.inl h))
      · rcases List.mem_cons.mp h1 with he | hr
        · refine Or.inl ⟨ab.2, List.mem_append_right _ h2, ?_⟩
          rw [← he]
        · exact Or.inr (Or.inr (Or.inr ⟨hr, h2⟩))

theorem mem_permPairs {α : Type} {l : List α} {ab : α × α} :
    ab ∈ permPairs l ↔ ab ∈ combPairs l ∨ (ab.2, ab.1) ∈ combPairs l := by
  rcases ab with ⟨u, v⟩
  simp only [permPairs, List.mem_append, List.mem_map, Prod.mk.injEq]
  constructor
  · rintro (h | ⟨⟨x, y⟩, hxy, h1, h2⟩)
    · exact Or.inl h
    · simp only at h1 h2
      subst h1
      subst h2
      exact Or.inr hxy
  · rintro (h | h)
    · exact Or.inl h
    · exact Or.inr ⟨(v, u), h, rfl, rfl⟩

theorem mem_foldr_symmpairs {α : Type} [DecidableEq α] (f : α × α → Bool) :
    ∀ (l : List (α × α)) (x : α × α),
      (x ∈ l.foldr
        (fun ab acc =>
          if f ab then insert (ab.1, ab.2) (insert (ab.2, ab.1) acc) else acc)
        (∅ : Finset (α × α))) ↔
        ∃ ab ∈ l, f ab = true ∧ (x = (ab.1, ab.2) ∨ x = (ab.2, ab.1)) := by
  intro l
  induction l with
  | nil => intro x; simp
  | cons ab rest ih =>
    intro x
    simp only [List.foldr_cons, List.mem_cons]
    by_cases h : f ab = true
    · simp only [if_pos h, Finset.mem_insert, ih]
      constructor
      · rintro (he | he | ⟨cd, hcd, hf, hor⟩)
        · exact ⟨ab, Or.inl rfl, h, Or.inl he⟩
        · exact ⟨ab, Or.inl rfl, h, Or.inr he⟩
        · exact ⟨cd, Or.inr hcd, hf, hor⟩
      · rintro ⟨cd, hab | hrest, hf, hor⟩
        · subst hab
          rcases hor with he | he
          · exact Or.inl he
          · exact Or.inr (Or.inl he)
        · exact Or.inr (Or.inr ⟨cd, hrest, hf, hor⟩)
    · simp only [if_neg h, ih]
      constructor
      · rintro ⟨cd, hcd, hf, hor⟩
        exact ⟨cd, Or.inr hcd, hf, hor⟩
      · rintro ⟨cd, hab | hrest, hf, hor⟩
        · subst hab
          exact absurd hf h
        · exact ⟨cd, hrest, hf, hor⟩

theorem mem_actions_mutex_from
    {mp : Finset (PropositionLabel × PropositionLabel)} {acts : List Action}
    {x : Action × Action} :
    x ∈ actions_mutex_from mp acts ↔
      ∃ ab ∈ permPairs acts,
        is_action_mutex mp ab.1 ab.2 = true ∧
        (x = (ab.1, ab.2) ∨ x = (ab.2, ab.1)) :=
  mem_foldr_symmpairs
    (fun ab => is_action_mutex mp ab.1 ab.2)
    (permPairs acts) x

theorem mem_calculate_actions_mutex {previous_state : Layer} {acts : List Action}
    {x : Action × Action} :
    x ∈ calculate_actions_mutex previous_state acts ↔
      ∃ ab ∈ permPairs acts,
        is_action_mutex previous_state.mutex_propositions ab.1 ab.2 = true ∧
        (x = (ab.1, ab.2) ∨ x = (ab.2, ab.1)) :=
  mem_actions_mutex_from

theorem actions_mutex_from_symm
    {mp : Finset (PropositionLabel × PropositionLabel)} {acts : List Action}
    {u v : Action} (h : (u, v) ∈ actions_mutex_from mp acts) :
    (v, u) ∈ actions_mutex_from mp acts := by
  rw [mem_actions_mutex_from] at h ⊢
  obtain ⟨ab, hab, hf, hor⟩ := h
  refine ⟨ab, hab, hf, ?_⟩
  rcases hor with he | he
  · exact Or.inr (by rw [Prod.ext_iff] at he ⊢; exact ⟨he.2, he.1⟩)
  · exact Or.inl (by rw [Prod.ext_iff] at he ⊢; exact ⟨he.2, he.1⟩)

theorem calculate_actions_mutex_symm {previous_state : Layer} {acts : List Action}
    {u v : Action} (h : (u, v) ∈ calculate_actions_mutex previous_state acts) :
    (v, u) ∈ calculate_actions_mutex previous_state acts :=
  actions_mutex_from_symm h

theorem actions_mutex_from_iff
    {mp : Finset (PropositionLabel × PropositionLabel)} {acts : List Action}
    {u v : Action} (huv : u ≠ v) :
    (u, v) ∈ actions_mutex_from mp acts ↔
      u ∈ acts ∧ v ∈ acts ∧
        (is_action_mutex mp u v = true ∨
         is_action_mutex mp v u = true) := by
  rw [mem_actions_mutex_from]
  constructor
  · rintro ⟨⟨a, b⟩, hab, hf, hor⟩
    have hmem : a ∈ acts ∧ b ∈ acts := by
      rcases mem_permPairs.mp hab with h | h
      · exact mem_combPairs_left h
      · exact (mem_combPairs_left h).symm
    rcases hor with he | he <;> rw [Prod.ext_iff] at he <;>
      obtain ⟨h1, h2⟩ := he <;> simp only at h1 h2 <;> subst h1 <;> subst h2
    · exact ⟨hmem.1, hmem.2, Or.inl hf⟩
    · exact ⟨hmem.2, hmem.1, Or.inr hf⟩
  · rintro ⟨hu, hv, hf | hf⟩
    · refine ⟨(u, v), ?_, hf, Or.inl rfl⟩
      rw [mem_permPairs]
      simpa using combPairs_mem_of_mem hu hv huv
    · refine ⟨(v, u), ?_, hf, Or.inr rfl⟩
      rw [mem_permPairs]
      simpa using combPairs_mem_of_mem hv hu (Ne.symm huv)

theorem calculate_actions_mutex_iff {previous_state : Layer} {acts : List Action}
    {u v : Action} (huv : u ≠ v) :
    (u, v) ∈ calculate_actions_mutex previous_state acts ↔
      u ∈ acts ∧ v ∈ acts ∧
        (is_action_mutex previous_state.mutex_propositions u v = true ∨
         is_action_mutex previous_state.mutex_propositions v u = true) :=
  actions_mutex_from_iff huv

theorem mem_producers {acts : List Action} {p : PropositionLabel} {a : Action} :
    a ∈ producers acts p ↔ a ∈ acts ∧ p ∈ a.effects := by
  simp [producers, List.mem_filter]

theorem mem_calculate_propositions {acts : List Action} {p : PropositionLabel} :
    p ∈ calculate_propositions acts ↔ ∃ a ∈ acts, p ∈ a.effects := by
  unfold calculate_propositions
  induction acts with
  | nil => simp
  | cons a rest ih => simp [List.foldr_cons, ih]

theorem mem_goal_calculate_subgoal {acts : List Action} {p : PropositionLabel} :
    p ∈ goal_calculate_subgoal acts ↔ ∃ a ∈ acts, p ∈ a.requirements := by
  unfold goal_calculate_subgoal
  induction acts with
  | nil => simp
  | cons a rest ih => simp [List.foldr_cons, ih]

theorem mem_producedList {acts : List Action} {p : PropositionLabel} :
    p ∈ producedList acts ↔ ∃ a ∈ acts, p ∈ a.effects := by
  simp [producedList, List.mem_dedup, List.mem_flatMap, mem_sortedList]

theorem producedList_nodup (acts : List Action) : (producedList acts).Nodup :=
  List.nodup_dedup _

theorem mem_calculate_propositions_mutex {acts : List Action}
    {m : Finset (Action × Action)} {x : PropositionLabel × PropositionLabel} :
    x ∈ calculate_propositions_mutex acts m ↔
      ∃ pq ∈ combPairs (producedList acts),
        ((producers acts pq.1).all fun a =>
          (producers acts pq.2).all fun b => decide ((a, b) ∈ m)) = true ∧
        (x = (pq.1, pq.2) ∨ x = (pq.2, pq.1)) :=
  mem_foldr_symmpairs
    (fun pq => (producers acts pq.1).all fun a =>
      (producers acts pq.2).all fun b => decide ((a, b) ∈ m))
    (combPairs (producedList acts)) x

theorem calculate_propositions_mutex_symm {acts : List Action}
    {m : Finset (Action × Action)} {p q : PropositionLabel}
    (h : (p, q) ∈ calculate_propositions_mutex acts m) :
    (q, p) ∈ calculate_propositions_mutex acts m := by
  rw [mem_calculate_propositions_mutex] at h ⊢
  obtain ⟨pq, hpq, hf, hor⟩ := h
  refine ⟨pq, hpq, hf, ?_⟩
  rcases hor with he | he
  · exact Or.inr (by rw [Prod.ext_iff] at he ⊢; exact ⟨he.2, he.1⟩)
  · exact Or.inl (by rw [Prod.ext_iff] at he ⊢; exact ⟨he.2, he.1⟩)

theorem all_producers_iff {acts : List Action} {m : Finset (Action × Action)}
    {p q : PropositionLabel} :
    ((producers acts p).all fun a =>
      (producers acts q).all fun b => decide ((a, b) ∈ m)) = true ↔
      ∀ a ∈ producers acts p, ∀ b ∈ producers acts q, (a, b) ∈ m := by
  simp [List.all_eq_true]

theorem calculate_propositions_mutex_irrefl {acts : List Action}
    {m : Finset (Action × Action)} (p : PropositionLabel) :
    (p, p) ∉ calculate_propositions_mutex acts m := by
  intro h
  rw [mem_calculate_propositions_mutex] at h
  obtain ⟨⟨x, y⟩, hpq, _, hor⟩ := h
  rcases hor with he | he <;> rw [Prod.ext_iff] at he <;>
    obtain ⟨h1, h2⟩ := he <;> simp only at h1 h2 <;> subst h1 <;> subst h2
  · exact not_mem_combPairs_self (producedList_nodup acts) _ hpq
  · exact not_mem_combPairs_self (producedList_nodup acts) _ hpq

theorem calculate_propositions_mutex_iff {acts : List Action}
    {m : Finset (Action × Action)}
    (hsym : ∀ u v : Action, (u, v) ∈ m → (v, u) ∈ m)
    {p q : PropositionLabel} (hpq : p ≠ q) :
    (p, q) ∈ calculate_propositions_mutex acts m ↔
      ((∃ a ∈ acts, p ∈ a.effects) ∧ (∃ a ∈ acts, q ∈ a.effects) ∧
        ∀ a ∈ producers acts p, ∀ b ∈ producers acts q, (a, b) ∈ m) := by
  rw [mem_calculate_propositions_mutex]
  constructor
  · rintro ⟨⟨x, y⟩, hxy, hf, hor⟩
    have hmem := mem_combPairs_left hxy
    rcases hor with he | he <;> rw [Prod.ext_iff] at he <;>
      obtain ⟨h1, h2⟩ := he <;> simp only at h1 h2 <;> subst h1 <;> subst h2
    · exact ⟨mem_producedList.mp hmem.1, mem_producedList.mp hmem.2,
        all_producers_iff.mp hf⟩
    · refine ⟨mem_producedList.mp hmem.2, mem_producedList.mp hmem.1, ?_⟩
      intro a ha b hb
      exact hsym _ _ (all_producers_iff.mp hf b hb a ha)
  · rintro ⟨hp, hq, hall⟩
    have hpl : p ∈ producedList acts := mem_producedList.mpr hp
    have hql : q ∈ producedList acts := mem_producedList.mpr hq
    rcases combPairs_mem_of_mem hpl hql hpq with h | h
    · exact ⟨(p, q), h, all_producers_iff.mpr hall, Or.inl rfl⟩
    · refine ⟨(q, p), h, all_producers_iff.mpr ?_, Or.inr rfl⟩
      intro b hb a ha
      exact hsym _ _ (hall a ha b hb)

/-!  Claim theorems begin here.  -/

/-- Claim C7: for every layer produced by `calculate_next_layer`, both mutex
relations are symmetric: `(a, b)` is recorded exactly when `(b, a)` is, and
likewise for proposition pairs. -/
theorem c7_mutex_symmetry (current_state : Layer) (available_actions : List Action) :
    (∀ a b : Action,
      (a, b) ∈ (calculate_next_layer current_state available_actions).mutex_actions ↔
      (b, a) ∈ (calculate_next_layer current_state available_actions).mutex_actions) ∧
    (∀ p q : PropositionLabel,
      (p, q) ∈ (calculate_next_layer current_state available_actions).mutex_propositions ↔
      (q, p) ∈ (calculate_next_layer current_state available_actions).mutex_propositions) := by
  constructor
  · intro a b
    constructor <;> intro h <;> exact calculate_actions_mutex_symm h
  · intro p q
    constructor <;> intro h <;> exact calculate_propositions_mutex_symm h

theorem mem_calculate_actions {current_state : Layer} {available_actions : List Action}
    {a : Action} :
    a ∈ calculate_actions current_state available_actions ↔
      ((∃ p ∈ current_state.propositions, a = noop_action p) ∨
        (a ∈ available_actions ∧ a.requirements ⊆ current_state.propositions)) := by
  simp only [calculate_actions, List.mem_append, List.mem_map, List.mem_filter,
    mem_sortedList, decide_eq_true_eq]
  constructor
  · rintro (⟨p, hp, he⟩ | ⟨ha, hr⟩)
    · exact Or.inl ⟨p, hp, he.symm⟩
    · exact Or.inr ⟨ha, hr⟩
  · rintro (⟨p, hp, he⟩ | ⟨ha, hr⟩)
    · exact Or.inl ⟨p, hp, he.symm⟩
    · exact Or.inr ⟨ha, hr⟩

/-- Claim C10: the proposition set of the next layer contains the current
layer's propositions, because a no-op producing each of them is added. -/
theorem c10_propositions_monotone (current_state : Layer) (available_actions : List Action) :
    current_state.propositions ⊆
      (calculate_next_layer current_state available_actions).propositions := by
  intro p hp
  show p ∈ calculate_propositions (calculate_actions current_state available_actions)
  refine mem_calculate_propositions.mpr ⟨noop_action p, ?_, ?_⟩
  · exact mem_calculate_actions.mpr (Or.inl ⟨p, hp, rfl⟩)
  · exact Finset.mem_singleton_self p

theorem plan_goal_reached_eq_false_iff {layer : Layer} {goal : Finset PropositionLabel} :
    plan_goal_reached layer goal = false ↔
      (¬ goal ⊆ layer.propositions ∨
        ∃ p ∈ goal, ∃ q ∈ goal, (p, q) ∈ layer.mutex_propositions) := by
  simp only [plan_goal_reached, Bool.and_eq_false_iff, Bool.not_eq_false',
    decide_eq_false_iff_not, decide_eq_true_eq]
  constructor
  · rintro (h | ⟨p, hp, hne⟩)
    · exact Or.inl h
    · obtain ⟨q, hq⟩ := hne
      rw [Finset.mem_inter] at hq
      exact Or.inr ⟨p, hp, q, hq.1, mem_mutexOf.mp hq.2⟩
  · rintro (h | ⟨p, hp, q, hq, hpq⟩)
    · exact Or.inl h
    · exact Or.inr ⟨p, hp, q, Finset.mem_inter.mpr ⟨hq, mem_mutexOf.mpr hpq⟩⟩

/-- Claim C6: the pre-checks of `search_for_solution`, in order: an empty goal
returns the empty plan; a stack whose last two layers are equal raises
`PlanNotPossible`; a goal proposition missing from the last layer or two goal
propositions that are proposition-mutex there raise `PlanNotFound`; and an
empty action list in the last layer returns the empty plan. -/
theorem c6_solver_prechecks (layers : List Layer) (goal : Finset PropositionLabel) :
    (goal = ∅ → search_for_solution layers goal = .found []) ∧
    (∀ l1 l2 rest, layers = l1 :: l2 :: rest → goal ≠ ∅ → l1 = l2 →
      search_for_solution layers goal = .notPossible) ∧
    (∀ current rest, layers = current :: rest → goal ≠ ∅ →
      plan_is_stalled layers = false →
      (¬ goal ⊆ current.propositions ∨
        ∃ p ∈ goal, ∃ q ∈ goal, (p, q) ∈ current.mutex_propositions) →
      search_for_solution layers goal = .notFound) ∧
    (∀ current rest, layers = current :: rest → goal ≠ ∅ →
      plan_is_stalled layers = false →
      plan_goal_reached current goal = true →
      current.actions = [] →
      search_for_solution layers goal = .found []) := by
  refine ⟨?_, ?_, ?_, ?_⟩
  · intro h
    subst h
    cases layers with
    | nil => simp [search_for_solution]
    | cons current rest => simp [search_for_solution]
  · intro l1 l2 rest he hgoal hstall
    subst he
    have hs : plan_is_stalled (l1 :: l2 :: rest) = true := by
      simp [plan_is_stalled, hstall]
    simp [search_for_solution, hgoal, hs]
  · intro current rest he hgoal hstall hbad
    subst he
    have hr : plan_goal_reached current goal = false :=
      plan_goal_reached_eq_false_iff.mpr hbad
    simp [search_for_solution, hgoal, hstall, hr]
  · intro current rest he hgoal hstall hreached hact
    subst he
    simp [search_for_solution, hgoal, hstall, hreached, hact]

/-- Witness for C6: each of the four pre-check branches observed at a concrete
input. -/
theorem c6_solver_prechecks_witness :
    search_for_solution [layer0 {"a"}] ∅ = .found [] ∧
    search_for_solution [layer0 {"a"}, layer0 {"a"}] {"b"} = .notPossible ∧
    search_for_solution [layer0 {"a"}] {"b"} = .notFound ∧
    search_for_solution [layer0 {"a"}] {"a"} = .found [] := by
  refine ⟨(c6_solver_prechecks [layer0 {"a"}] ∅).1 rfl, ?_, ?_, ?_⟩
  · exact (c6_solver_prechecks [layer0 {"a"}, layer0 {"a"}] {"b"}).2.1
      (layer0 {"a"}) (layer0 {"a"}) [] rfl (by decide) rfl
  · exact (c6_solver_prechecks [layer0 {"a"}] {"b"}).2.2.1 (layer0 {"a"}) [] rfl
      (by decide) (by decide) (Or.inl (by decide))
  · exact (c6_solver_prechecks [layer0 {"a"}] {"a"}).2.2.2 (layer0 {"a"}) [] rfl
      (by decide) (by decide) (by decide) rfl

theorem unsetSearch_no_underscore : ∀ (l acc : List Char), (∀ c ∈ l, c ≠ '_') →
    unsetSearch acc l = none := by
  intro l
  induction l with
  | nil => intro acc _; rfl
  | cons c rest ih =>
    intro acc hcl
    have hc : c ≠ '_' := hcl c (List.mem_cons_self _ _)
    simp only [unsetSearch, if_neg hc]
    exact ih (c :: acc) fun d hd => hcl d (List.mem_cons_of_mem _ hd)

theorem unsetSearch_clean_suffix : ∀ (base acc : List Char), (∀ c ∈ base, c ≠ '_') →
    unsetSearch acc (base ++ unsetChars) = some (acc.reverse ++ base) := by
  intro base
  induction base with
  | nil =>
    intro acc _
    rw [List.nil_append, List.append_nil]
    show unsetSearch acc ('_' :: ['_', 'u', 'n', 's', 'e', 't']) = some acc.reverse
    rw [unsetSearch]
    rw [if_pos rfl,
      if_pos (by decide : unsetChars.isPrefixOf ('_' :: ['_', 'u', 'n', 's', 'e', 't']) = true)]
  | cons c rest ih =>
    intro acc hcl
    have hc : c ≠ '_' := hcl c (List.mem_cons_self _ _)
    rw [List.cons_append]
    simp only [unsetSearch, if_neg hc]
    rw [ih (c :: acc) fun d hd => hcl d (List.mem_cons_of_mem _ hd)]
    rw [List.reverse_cons, List.append_assoc, List.singleton_append]

theorem opposite_effect_eq_spec {s : PropositionLabel} (h : wellFormedLabel s) :
    opposite_effect s = spec_opposite s := by
  rcases h with hclean | ⟨hdata, hclean⟩
  · have hsearch := unsetSearch_no_underscore s.data [] hclean
    have hsuf : "__unset".data.isSuffixOf s.data ≠ true := by
      intro hsuf
      obtain ⟨pre, hpre⟩ := List.isSuffixOf_iff_suffix.mp hsuf
      have : '_' ∈ s.data := by
        rw [← hpre]
        exact List.mem_append_right pre (by decide)
      exact hclean _ this rfl
    rw [opposite_effect, hsearch, spec_opposite, if_neg hsuf]
  · have hsearch : unsetSearch [] s.data = some (s.data.take (s.data.length - 7)) := by
      conv_lhs => rw [hdata]
      rw [unsetSearch_clean_suffix (s.data.take (s.data.length - 7)) [] hclean,
        List.reverse_nil, List.nil_append]
    have hsuf : "__unset".data.isSuffixOf s.data = true := by
      rw [List.isSuffixOf_iff_suffix]
      exact ⟨s.data.take (s.data.length - 7), hdata.symm⟩
    rw [opposite_effect, hsearch, spec_opposite, if_pos hsuf]

theorem image_opposite_eq_spec_delete {E : Finset PropositionLabel}
    (h : ∀ e ∈ E, wellFormedLabel e) :
    E.image opposite_effect = spec_delete E :=
  Finset.image_congr fun e he => opposite_effect_eq_spec (h e he)

theorem is_action_mutex_eq_spec {previous_state : Layer} {a b : Action}
    (hwf : ∀ e ∈ a.effects, wellFormedLabel e) :
    (is_action_mutex previous_state.mutex_propositions a b = true ↔
      spec_action_mutex_cond previous_state a b) := by
  rw [is_action_mutex_iff, image_opposite_eq_spec_delete hwf]
  exact Iff.rfl

theorem calculate_actions_effects_wf {current_state : Layer}
    {available_actions : List Action}
    (hwfa : ∀ a ∈ available_actions, ∀ e ∈ a.effects, wellFormedLabel e)
    (hwfp : ∀ p ∈ current_state.propositions, wellFormedLabel p) :
    ∀ u ∈ calculate_actions current_state available_actions,
      ∀ e ∈ u.effects, wellFormedLabel e := by
  intro u hu e he
  rcases mem_calculate_actions.mp hu with ⟨p, hp, hn⟩ | ⟨ha, _⟩
  · subst hn
    have : e = p := Finset.mem_singleton.mp he
    subst this
    exact hwfp _ hp
  · exact hwfa u ha e he

/-- Claim C4 (amended): for labels of the well-formed shape (underscore-free,
or underscore-free base plus the `__unset` suffix) the action-mutex relation of
the new layer holds between distinct actions exactly when one of the
specification's three rules fires in either orientation, with the
specification's opposite-map. -/
theorem c4_action_mutex_spec (previous_state : Layer) (available_actions : List Action)
    (hwfa : ∀ a ∈ available_actions, ∀ e ∈ a.effects, wellFormedLabel e)
    (hwfp : ∀ p ∈ previous_state.propositions, wellFormedLabel p)
    (a b : Action) (hab : a ≠ b) :
    ((a, b) ∈ (calculate_next_layer previous_state available_actions).mutex_actions ↔
      (a ∈ (calculate_next_layer previous_state available_actions).actions ∧
       b ∈ (calculate_next_layer previous_state available_actions).actions ∧
       (spec_action_mutex_cond previous_state a b ∨
        spec_action_mutex_cond previous_state b a))) := by
  have hwf := calculate_actions_effects_wf hwfa hwfp
  show (a, b) ∈ calculate_actions_mutex previous_state
      (calculate_actions previous_state available_actions) ↔
    (a ∈ calculate_actions previous_state available_actions ∧
     b ∈ calculate_actions previous_state available_actions ∧ _)
  rw [calculate_actions_mutex_iff hab]
  constructor
  · rintro ⟨ha, hb, hm | hm⟩
    · exact ⟨ha, hb, Or.inl ((is_action_mutex_eq_spec (hwf a ha)).mp hm)⟩
    · exact ⟨ha, hb, Or.inr ((is_action_mutex_eq_spec (hwf b hb)).mp hm)⟩
  · rintro ⟨ha, hb, hm | hm⟩
    · exact ⟨ha, hb, Or.inl ((is_action_mutex_eq_spec (hwf a ha)).mpr hm)⟩
    · exact ⟨ha, hb, Or.inr ((is_action_mutex_eq_spec (hwf b hb)).mpr hm)⟩

/-- Witness for C4: the amended equivalence applied to two concrete
well-formed actions, the no-op of `x` and an action asserting its negation. -/
theorem c4_action_mutex_spec_witness :
    ((noop_action "x", unsetX) ∈
      (calculate_next_layer (layer0 {"x"}) [unsetX]).mutex_actions ↔
      (noop_action "x" ∈ (calculate_next_layer (layer0 {"x"}) [unsetX]).actions ∧
       unsetX ∈ (calculate_next_layer (layer0 {"x"}) [unsetX]).actions ∧
       (spec_action_mutex_cond (layer0 {"x"}) (noop_action "x") unsetX ∨
        spec_action_mutex_cond (layer0 {"x"}) unsetX (noop_action "x")))) :=
  c4_action_mutex_spec (layer0 {"x"}) [unsetX] (by decide) (by decide) _ _ (by decide)

/-- Counterexample for C4 as stated: with the underscored labels `p_q`, `r_s`,
the specification's interference rule fires for the ordered pair
`(actA, actB)` — the opposite of the effect `r_s__unset` is the requirement
`r_s` of `actB` — and no rule fires for `(actB, actA)` under the code's
opposite-map, so the claimed equivalence demands the pair be marked mutex; the
builder leaves it unmarked because its regex parses the opposite of
`r_s__unset` as `s`. -/
theorem c4_counterexample :
    spec_action_mutex_cond (layer0 {"p_q", "r_s"}) actA actB ∧
    actA ∈ (calculate_next_layer (layer0 {"p_q", "r_s"}) [actA, actB]).actions ∧
    actB ∈ (calculate_next_layer (layer0 {"p_q", "r_s"}) [actA, actB]).actions ∧
    (actA, actB) ∉
      (calculate_next_layer (layer0 {"p_q", "r_s"}) [actA, actB]).mutex_actions := by
  refine ⟨by decide, by decide, by decide, by decide⟩

theorem noop_action_injective : Function.Injective noop_action := by
  intro p q h
  have := congrArg Action.requirements h
  simpa [noop_action, Finset.singleton_inj] using this

theorem actions_mutex_from_irrefl
    {X : Finset (PropositionLabel × PropositionLabel)} {current_state : Layer}
    {available_actions : List Action} (hnd : available_actions.Nodup)
    (hirr : ∀ p, (p, p) ∉ X) (a : Action) :
    (a, a) ∉ actions_mutex_from X
      (calculate_actions current_state available_actions) := by
  intro h
  rw [mem_actions_mutex_from] at h
  obtain ⟨ab, hperm, hf, hor⟩ := h
  have hab : ab = (a, a) := by
    rcases hor with he | he <;> rw [Prod.ext_iff] at he <;>
      obtain ⟨h1, h2⟩ := he <;> simp only at h1 h2 <;> rw [Prod.ext_iff]
    · exact ⟨h1.symm, h2.symm⟩
    · exact ⟨h2.symm, h1.symm⟩
  subst hab
  simp only at hf
  have hcomb : (a, a) ∈ combPairs (calculate_actions current_state available_actions) := by
    rcases mem_permPairs.mp hperm with h | h <;> exact h
  rw [calculate_actions] at hcomb
  rcases mem_combPairs_append.mp hcomb with h1 | h2 | ⟨hm1, hm2⟩
  · exact not_mem_combPairs_self
      (List.Nodup.map noop_action_injective (sortedList_nodup _)) _ h1
  · exact not_mem_combPairs_self (List.Nodup.filter _ hnd) _ h2
  · obtain ⟨p, hp, he⟩ := List.mem_map.mp hm1
    subst he
    rw [is_action_mutex_iff] at hf
    rcases hf with h | h | ⟨x, hx, y, hy, hxy⟩
    · obtain ⟨z, hz⟩ := h
      rw [Finset.mem_inter, Finset.mem_image] at hz
      obtain ⟨⟨w, hw, hwz⟩, hz2⟩ := hz
      have hwp : w = p := Finset.mem_singleton.mp hw
      have hzp : z = p := Finset.mem_singleton.mp hz2
      exact opposite_effect_ne w (hwz.trans (hzp.trans hwp.symm))
    · obtain ⟨z, hz⟩ := h
      rw [Finset.mem_inter, Finset.mem_image] at hz
      obtain ⟨⟨w, hw, hwz⟩, hz2⟩ := hz
      have hwp : w = p := Finset.mem_singleton.mp hw
      have hzp : z = p := Finset.mem_singleton.mp hz2
      exact opposite_effect_ne w (hwz.trans (hzp.trans hwp.symm))
    · have hxp : x = p := Finset.mem_singleton.mp hx
      have hyp : y = p := Finset.mem_singleton.mp hy
      exact hirr p (by rwa [hxp, hyp] at hxy)

theorem calculate_actions_mutex_irrefl {previous_state : Layer}
    {available_actions : List Action} (hnd : available_actions.Nodup)
    (hirr : ∀ p, (p, p) ∉ previous_state.mutex_propositions) (a : Action) :
    (a, a) ∉ calculate_actions_mutex previous_state
      (calculate_actions previous_state available_actions) :=
  actions_mutex_from_irrefl hnd hirr a

/-- Claim C5: two distinct propositions of the new layer are marked mutex
exactly when every producer of one is action-mutex with every producer of the
other; and since no action is mutex with itself, propositions with a common
producer are never marked mutex.  The hypotheses record that the caller's
action set has no duplicates (a Python set) and that the previous layer's
proposition-mutex relation is irreflexive, as every layer the planner builds
satisfies. -/
theorem c5_proposition_mutex (previous_state : Layer) (available_actions : List Action)
    (hnd : available_actions.Nodup)
    (hirr : ∀ p, (p, p) ∉ previous_state.mutex_propositions) (p q : PropositionLabel)
    (hpq : p ≠ q) :
    (((p, q) ∈ (calculate_next_layer previous_state available_actions).mutex_propositions) ↔
      (p ∈ (calculate_next_layer previous_state available_actions).propositions ∧
       q ∈ (calculate_next_layer previous_state available_actions).propositions ∧
       ∀ a ∈ producers (calculate_next_layer previous_state available_actions).actions p,
         ∀ b ∈ producers (calculate_next_layer previous_state available_actions).actions q,
           (a, b) ∈ (calculate_next_layer previous_state available_actions).mutex_actions)) ∧
    ((∃ c, c ∈ producers (calculate_next_layer previous_state available_actions).actions p ∧
        c ∈ producers (calculate_next_layer previous_state available_actions).actions q) →
      (p, q) ∉ (calculate_next_layer previous_state available_actions).mutex_propositions) := by
  have hmain :
      ((p, q) ∈ (calculate_next_layer previous_state available_actions).mutex_propositions) ↔
        (p ∈ (calculate_next_layer previous_state available_actions).propositions ∧
         q ∈ (calculate_next_layer previous_state available_actions).propositions ∧
         ∀ a ∈ producers (calculate_next_layer previous_state available_actions).actions p,
           ∀ b ∈ producers (calculate_next_layer previous_state available_actions).actions q,
             (a, b) ∈
               (calculate_next_layer previous_state available_actions).mutex_actions) := by
    show (p, q) ∈ calculate_propositions_mutex
        (calculate_actions previous_state available_actions)
        (calculate_actions_mutex previous_state
          (calculate_actions previous_state available_actions)) ↔ _
    rw [calculate_propositions_mutex_iff
      (fun u v h => calculate_actions_mutex_symm h) hpq]
    constructor
    · rintro ⟨h1, h2, h3⟩
      exact ⟨mem_calculate_propositions.mpr h1, mem_calculate_propositions.mpr h2, h3⟩
    · rintro ⟨h1, h2, h3⟩
      exact ⟨mem_calculate_propositions.mp h1, mem_calculate_propositions.mp h2, h3⟩
  refine ⟨hmain, ?_⟩
  rintro ⟨c, hcp, hcq⟩ hmem
  have h3 := (hmain.mp hmem).2.2 c hcp c hcq
  exact calculate_actions_mutex_irrefl hnd hirr c h3

/-- Witness for C5: the equivalence and the common-producer clause observed at
a concrete layer with the propositions `x` and `x__unset`. -/
theorem c5_proposition_mutex_witness :
    (((("x" : PropositionLabel), ("x__unset" : PropositionLabel)) ∈
        (calculate_next_layer (layer0 {"x"}) [unsetX]).mutex_propositions ↔
      ("x" : PropositionLabel) ∈ (calculate_next_layer (layer0 {"x"}) [unsetX]).propositions ∧
      ("x__unset" : PropositionLabel) ∈
        (calculate_next_layer (layer0 {"x"}) [unsetX]).propositions ∧
      ∀ a ∈ producers (calculate_next_layer (layer0 {"x"}) [unsetX]).actions "x",
        ∀ b ∈ producers (calculate_next_layer (layer0 {"x"}) [unsetX]).actions "x__unset",
          (a, b) ∈ (calculate_next_layer (layer0 {"x"}) [unsetX]).mutex_actions) ∧
    ((∃ c, c ∈ producers (calculate_next_layer (layer0 {"x"}) [unsetX]).actions "x" ∧
        c ∈ producers (calculate_next_layer (layer0 {"x"}) [unsetX]).actions "x__unset") →
      (("x" : PropositionLabel), ("x__unset" : PropositionLabel)) ∉
        (calculate_next_layer (layer0 {"x"}) [unsetX]).mutex_propositions)) :=
  c5_proposition_mutex (layer0 {"x"}) [unsetX] (by decide)
    (fun p => Finset.not_mem_empty _) "x" "x__unset" (by decide)

/-- Claim C1 (code bug): on the state `{p_q, r_s}` with goal `{gA, gB}`,
`plan` returns the plan `[actA, actB]`, but executing it under the
specification's semantics fails in either order: each action deletes the
other's requirement (`r_s__unset` deletes `r_s`, `p_q__unset` deletes `p_q`),
an interference the builder misses because its regex parses the opposite of
`r_s__unset` as `s` and of `p_q__unset` as `q`, so the pair is never marked
mutex.  The claim's soundness property demands the execution reach a superset
of the goal. -/
theorem c1_soundness_failure :
    plan 1 {"p_q", "r_s"} {"gA", "gB"} [actA, actB] = some (.success [actA, actB]) ∧
    execState {"p_q", "r_s"} [actA, actB] = none ∧
    execState {"p_q", "r_s"} [actB, actA] = none := by
  refine ⟨by decide, by decide, by decide⟩

/-- Claim C2 (code bug): on the empty state with goal `{a_b__unset, b}`,
`plan` raises `PlanNotPossible` at the third layer, although the two available
actions executed in order reach the goal exactly.  The builder wrongly marks
`mkAB` and `mkB` mutex — it parses the opposite of `a_b__unset` as `b`, an
effect of `mkB` — so the goal pair stays proposition-mutex until the graph
levels off. -/
theorem c2_completeness_failure :
    plan 3 (∅ : Finset PropositionLabel) {"a_b__unset", "b"} [mkAB, mkB] =
      some .notPossible ∧
    ∃ s, execState ∅ [mkAB, mkB] = some s ∧
      ({"a_b__unset", "b"} : Finset PropositionLabel) ⊆ s :=
  ⟨by decide, {"a_b__unset", "b"}, by decide, by decide⟩

theorem plan_goal_reached_eq_true_iff {layer : Layer} {goal : Finset PropositionLabel} :
    plan_goal_reached layer goal = true ↔
      (goal ⊆ layer.propositions ∧
        ∀ p ∈ goal, ∀ q ∈ goal, (p, q) ∉ layer.mutex_propositions) := by
  simp only [plan_goal_reached, Bool.and_eq_true, Bool.not_eq_true',
    decide_eq_false_iff_not, decide_eq_true_eq]
  constructor
  · rintro ⟨h1, h2⟩
    refine ⟨h1, ?_⟩
    intro p hp q hq hpq
    exact h2 ⟨p, hp, q, Finset.mem_inter.mpr ⟨hq, mem_mutexOf.mpr hpq⟩⟩
  · rintro ⟨h1, h2⟩
    refine ⟨h1, ?_⟩
    rintro ⟨p, hp, q, hq⟩
    rw [Finset.mem_inter] at hq
    exact h2 p hp q hq.1 (mem_mutexOf.mp hq.2)

theorem isNoopName_noop (g : PropositionLabel) : isNoopName ("noop_" ++ g) = true := by
  simp only [isNoopName, String.data_append, decide_eq_true_eq]
  rw [show (5 : Nat) = ("noop_").data.length from rfl, List.take_left]

theorem filter_noops_nil (l : List PropositionLabel) :
    (l.map noop_action).filter (fun a => ! isNoopName a.name) = [] := by
  rw [List.filter_eq_nil_iff]
  intro a ha
  obtain ⟨p, _, he⟩ := List.mem_map.mp ha
  subst he
  simp [noop_action, isNoopName_noop]

theorem filter_noops_effects_nil {g : PropositionLabel} :
    ∀ {l : List PropositionLabel}, g ∉ l →
      (l.map noop_action).filter (fun a => decide (g ∈ a.effects)) = [] := by
  intro l
  induction l with
  | nil => intro _; rfl
  | cons p rest ih =>
    intro hg
    have hgp : g ≠ p := fun e => hg (e ▸ List.mem_cons_self _ _)
    have hgr : g ∉ rest := fun h => hg (List.mem_cons_of_mem _ h)
    simp only [List.map_cons, List.filter_cons]
    rw [if_neg (by simp [noop_action, hgp])]
    exact ih hgr

theorem filter_noops_effects_single {g : PropositionLabel} :
    ∀ {l : List PropositionLabel}, l.Nodup → g ∈ l →
      (l.map noop_action).filter (fun a => decide (g ∈ a.effects)) = [noop_action g] := by
  intro l
  induction l with
  | nil => intro _ hg; exact absurd hg (List.not_mem_nil g)
  | cons p rest ih =>
    intro hnd hg
    simp only [List.map_cons, List.filter_cons]
    rcases List.mem_cons.mp hg with he | hr
    · subst he
      rw [if_pos (by simp [noop_action])]
      rw [filter_noops_effects_nil (List.nodup_cons.mp hnd).1]
    · have hgp : g ≠ p := by
        intro e
        subst e
        exact (List.nodup_cons.mp hnd).1 hr
      rw [if_neg (by simp [noop_action, hgp])]
      exact ih (List.nodup_cons.mp hnd).2 hr

theorem listProduct_first {gs : List PropositionLabel} {f : PropositionLabel → List Action}
    (h : ∀ g ∈ gs, ∃ tl, f g = noop_action g :: tl) :
    ∃ rest, listProduct (gs.map f) = gs.map noop_action :: rest := by
  induction gs with
  | nil => exact ⟨[], rfl⟩
  | cons g gs' ih =>
    obtain ⟨tl, htl⟩ := h g (List.mem_cons_self _ _)
    obtain ⟨rest', hrest⟩ := ih fun x hx => h x (List.mem_cons_of_mem _ hx)
    refine ⟨List.map (fun t => noop_action g :: t) rest' ++
      tl.flatMap fun x => (listProduct (gs'.map f)).map fun t => x :: t, ?_⟩
    simp only [List.map_cons, listProduct, htl, List.flatMap_cons, hrest, List.map_cons]
    rfl

theorem goal_set_mutex_false {am : Finset (Action × Action)} :
    ∀ {l : List Action}, (∀ a ∈ l, ∀ b ∈ l, (a, b) ∉ am) →
      goal_is_action_set_mutex am l = false := by
  intro l
  induction l with
  | nil => intro _; rfl
  | cons a rest ih =>
    intro h
    simp only [goal_is_action_set_mutex, Bool.or_eq_false_iff]
    constructor
    · rw [List.any_eq_false]
      intro b hb
      simp only [decide_eq_true_eq]
      exact h a (List.mem_cons_self _ _) b (List.mem_cons_of_mem _ hb)
    · exact ih fun x hx y hy =>
        h x (List.mem_cons_of_mem _ hx) y (List.mem_cons_of_mem _ hy)

theorem noop_pair_not_mutex {state : Finset PropositionLabel} {available : List Action}
    (hnd : available.Nodup) {p q : PropositionLabel}
    (hopp1 : opposite_effect p ≠ q) (hopp2 : opposite_effect q ≠ p) :
    (noop_action p, noop_action q) ∉ calculate_actions_mutex (layer0 state)
      (calculate_actions (layer0 state) available) := by
  by_cases hne : noop_action p = noop_action q
  · rw [hne]
    exact calculate_actions_mutex_irrefl hnd (fun r => Finset.not_mem_empty _) _
  · intro h
    obtain ⟨_, _, hm | hm⟩ := (calculate_actions_mutex_iff hne).mp h
    · rw [is_action_mutex_iff] at hm
      rcases hm with hm | hm | ⟨x, _, y, _, hxy⟩
      · obtain ⟨z, hz⟩ := hm
        rw [Finset.mem_inter, Finset.mem_image] at hz
        obtain ⟨⟨w, hw, hwz⟩, hz2⟩ := hz
        have hwp : w = p := Finset.mem_singleton.mp hw
        have hzq : z = q := Finset.mem_singleton.mp hz2
        exact hopp1 (by rw [← hwp, hwz, hzq])
      · obtain ⟨z, hz⟩ := hm
        rw [Finset.mem_inter, Finset.mem_image] at hz
        obtain ⟨⟨w, hw, hwz⟩, hz2⟩ := hz
        have hwp : w = p := Finset.mem_singleton.mp hw
        have hzq : z = q := Finset.mem_singleton.mp hz2
        exact hopp1 (by rw [← hwp, hwz, hzq])
      · exact Finset.not_mem_empty _ hxy
    · rw [is_action_mutex_iff] at hm
      rcases hm with hm | hm | ⟨x, _, y, _, hxy⟩
      · obtain ⟨z, hz⟩ := hm
        rw [Finset.mem_inter, Finset.mem_image] at hz
        obtain ⟨⟨w, hw, hwz⟩, hz2⟩ := hz
        have hwq : w = q := Finset.mem_singleton.mp hw
        have hzp : z = p := Finset.mem_singleton.mp hz2
        exact hopp2 (by rw [← hwq, hwz, hzp])
      · obtain ⟨z, hz⟩ := hm
        rw [Finset.mem_inter, Finset.mem_image] at hz
        obtain ⟨⟨w, hw, hwz⟩, hz2⟩ := hz
        have hwq : w = q := Finset.mem_singleton.mp hw
        have hzp : z = p := Finset.mem_singleton.mp hz2
        exact hopp2 (by rw [← hwq, hwz, hzp])
      · exact Finset.not_mem_empty _ hxy

theorem mem_next_propositions {current_state : Layer} {available_actions : List Action}
    {p : PropositionLabel} (hp : p ∈ current_state.propositions) :
    p ∈ calculate_propositions (calculate_actions current_state available_actions) :=
  mem_calculate_propositions.mpr ⟨noop_action p,
    mem_calculate_actions.mpr (Or.inl ⟨p, hp, rfl⟩), Finset.mem_singleton_self p⟩

theorem subgoal_noops (l : List PropositionLabel) {goal : Finset PropositionLabel}
    (h : ∀ x, x ∈ l ↔ x ∈ goal) :
    goal_calculate_subgoal (l.map noop_action) = goal := by
  apply Finset.ext
  intro x
  rw [mem_goal_calculate_subgoal]
  constructor
  · rintro ⟨a, ha, hx⟩
    obtain ⟨g, hg, he⟩ := List.mem_map.mp ha
    subst he
    have : x = g := Finset.mem_singleton.mp hx
    subst this
    exact (h x).mp hg
  · intro hx
    exact ⟨noop_action x, List.mem_map.mpr ⟨x, (h x).mpr hx, rfl⟩,
      Finset.mem_singleton_self x⟩

theorem next_layer_actions (c : Layer) (av : List Action) :
    (calculate_next_layer c av).actions = calculate_actions c av := rfl

theorem next_layer_propositions (c : Layer) (av : List Action) :
    (calculate_next_layer c av).propositions =
      calculate_propositions (calculate_actions c av) := rfl

theorem next_layer_mutex_actions (c : Layer) (av : List Action) :
    (calculate_next_layer c av).mutex_actions =
      calculate_actions_mutex c (calculate_actions c av) := rfl

theorem next_layer_mutex_propositions (c : Layer) (av : List Action) :
    (calculate_next_layer c av).mutex_propositions =
      calculate_propositions_mutex (calculate_actions c av)
        (calculate_actions_mutex c (calculate_actions c av)) := rfl

theorem layer0_propositions (s : Finset PropositionLabel) :
    (layer0 s).propositions = s := rfl

theorem layer0_actions (s : Finset PropositionLabel) : (layer0 s).actions = [] := rfl

theorem plan_goal_in_state (state goal : Finset PropositionLabel)
    (available : List Action) (hnd : available.Nodup) (hsub : goal ⊆ state)
    (hopp : ∀ p ∈ goal, ∀ q ∈ goal, opposite_effect p ≠ q) (n : Nat) :
    plan (n + 1) state goal available = some (.success []) := by
  by_cases hempty : goal = ∅
  · have hsearch : search_for_solution
        (calculate_next_layer (layer0 state) available :: [layer0 state]) goal =
        .found [] := by
      rw [search_for_solution, if_pos hempty]
    rw [plan, planLoop]
    simp only [hsearch]
    rfl
  · obtain ⟨g0, hg0⟩ := Finset.nonempty_iff_ne_empty.mpr hempty
    have hg0s : g0 ∈ state := hsub hg0
    have hactsne : calculate_actions (layer0 state) available ≠ [] := by
      intro h
      have hmem : noop_action g0 ∈ calculate_actions (layer0 state) available :=
        mem_calculate_actions.mpr (Or.inl ⟨g0, hg0s, rfl⟩)
      rw [h] at hmem
      exact List.not_mem_nil _ hmem
    have hL1ne : calculate_next_layer (layer0 state) available ≠ layer0 state := by
      intro h
      exact hactsne (congrArg Layer.actions h)
    have hstall : plan_is_stalled (calculate_next_layer (layer0 state) available ::
        [layer0 state]) = false := by
      simp [plan_is_stalled, hL1ne]
    have hreach :
        plan_goal_reached (calculate_next_layer (layer0 state) available) goal = true := by
      rw [plan_goal_reached_eq_true_iff]
      constructor
      · intro p hp
        exact mem_next_propositions (hsub hp)
      · intro p hp q hq hmem
        rw [next_layer_mutex_propositions] at hmem
        by_cases hpq : p = q
        · subst hpq
          exact calculate_propositions_mutex_irrefl p hmem
        · have hiff := (calculate_propositions_mutex_iff
            (fun u v h => calculate_actions_mutex_symm h) hpq).mp hmem
          have hnoopp : noop_action p ∈
              producers (calculate_actions (layer0 state) available) p :=
            mem_producers.mpr ⟨mem_calculate_actions.mpr (Or.inl ⟨p, hsub hp, rfl⟩),
              Finset.mem_singleton_self p⟩
          have hnoopq : noop_action q ∈
              producers (calculate_actions (layer0 state) available) q :=
            mem_producers.mpr ⟨mem_calculate_actions.mpr (Or.inl ⟨q, hsub hq, rfl⟩),
              Finset.mem_singleton_self q⟩
          have hm := hiff.2.2 _ hnoopp _ hnoopq
          exact noop_pair_not_mutex hnd (hopp p hp q hq) (hopp q hq p hp) hm
    have hprod : ∀ g ∈ sortedList goal, ∃ tl,
        producers (calculate_actions (layer0 state) available) g =
          noop_action g :: tl := by
      intro g hg
      have hgstate : g ∈ state := hsub (mem_sortedList.mp hg)
      refine ⟨(available.filter fun a =>
        decide (a.requirements ⊆ state)).filter fun a => decide (g ∈ a.effects), ?_⟩
      rw [producers, calculate_actions, List.filter_append, layer0_propositions,
        filter_noops_effects_single (sortedList_nodup state)
          (mem_sortedList.mpr hgstate)]
      rfl
    obtain ⟨restc, hrestc⟩ := listProduct_first hprod
    have hnoopsnd : ((sortedList goal).map noop_action).Nodup :=
      List.Nodup.map noop_action_injective (sortedList_nodup goal)
    have hded : ((sortedList goal).map noop_action).dedup =
        (sortedList goal).map noop_action :=
      List.dedup_eq_self.mpr hnoopsnd
    have hmutex : goal_is_action_set_mutex
        (calculate_next_layer (layer0 state) available).mutex_actions
        ((sortedList goal).map noop_action) = false := by
      rw [next_layer_mutex_actions]
      apply goal_set_mutex_false
      intro a ha b hb
      obtain ⟨p, hp, hep⟩ := List.mem_map.mp ha
      obtain ⟨q, hq, heq⟩ := List.mem_map.mp hb
      subst hep
      subst heq
      exact noop_pair_not_mutex hnd
        (hopp p (mem_sortedList.mp hp) q (mem_sortedList.mp hq))
        (hopp q (mem_sortedList.mp hq) p (mem_sortedList.mp hp))
    have hsubgoal :
        goal_calculate_subgoal ((sortedList goal).map noop_action) = goal :=
      subgoal_noops _ fun x => mem_sortedList
    have hreachL0 : plan_goal_reached (layer0 state) goal = true := by
      rw [plan_goal_reached_eq_true_iff]
      exact ⟨hsub, fun p _ q _ hpq => Finset.not_mem_empty _ hpq⟩
    have hrec : search_for_solution [layer0 state] goal = .found [] := by
      rw [search_for_solution, if_neg hempty,
        if_neg (by simp [plan_is_stalled] : ¬ plan_is_stalled [layer0 state] = true),
        if_neg (by rw [hreachL0] ; simp),
        if_pos (show (layer0 state).actions = [] from rfl)]
    have htuples : goal_search_tuples
        (calculate_next_layer (layer0 state) available) goal =
        (sortedList goal).map noop_action :: restc := by
      rw [goal_search_tuples, next_layer_actions]
      exact hrestc
    have hsearch : search_for_solution
        (calculate_next_layer (layer0 state) available :: [layer0 state]) goal =
        .found ((sortedList goal).map noop_action) := by
      rw [search_for_solution, if_neg hempty, if_neg (by rw [hstall] ; simp),
        if_neg (by rw [hreach] ; simp), next_layer_actions, if_neg hactsne, htuples,
        searchCandidates]
      simp only [hded, hmutex, Bool.false_eq_true, if_false, hsubgoal, hrec]
      rw [List.nil_append]
    rw [plan, planLoop]
    simp only [hsearch]
    rw [filter_noops_nil]

/-- Claim C8 (amended): with a duplicate-free action list, `plan` with
`goal ⊆ state` returns the empty plan provided no goal proposition is the
code's opposite of another goal proposition; the first layer then contains a
non-mutex no-op producer for every goal proposition and the solver takes them
as its first candidate. -/
theorem c8_goal_in_state (state goal : Finset PropositionLabel)
    (available : List Action) (hnd : available.Nodup) (hsub : goal ⊆ state)
    (hopp : ∀ p ∈ goal, ∀ q ∈ goal, opposite_effect p ≠ q) (n : Nat) :
    plan (n + 1) state goal available = some (.success []) :=
  plan_goal_in_state state goal available hnd hsub hopp n

/-- Witness for C8: the spec's scenario S4, state `{a, b}` and goal `{a}`. -/
theorem c8_goal_in_state_witness :
    plan 1 {"a", "b"} {"a"} [unsetX] = some (.success []) :=
  c8_goal_in_state {"a", "b"} {"a"} [unsetX] (by decide) (by decide) (by decide) 0

/-- Counterexample for C8 as stated: the goal `{x, x__unset}` is a subset of
the state `{x, x__unset}`, yet `plan` raises `PlanNotPossible` — the two
no-op producers contradict each other, the goal pair is proposition-mutex on
every layer, and the graph levels off at the second expansion. -/
theorem c8_counterexample :
    ({"x", "x__unset"} : Finset PropositionLabel) ⊆ {"x", "x__unset"} ∧
    plan 2 {"x", "x__unset"} {"x", "x__unset"} [] = some .notPossible :=
  ⟨by decide, by decide⟩

/-- Claim C9 (amended): `plan_state_update` returns the empty plan when the
whole invalidated set — the update together with all effects depending on it —
is disjoint from the filtered state, and the filtered state contains no
contradictory label pair; the planner is then asked to reach a goal already
contained in its initial state. -/
theorem c9_state_update_noop (state update : Finset PropositionLabel)
    (available : List Action) (hnd : available.Nodup)
    (hdis : ((state.filter fun p => p ∈ available.foldr
        (fun a acc => a.requirements ∪ a.effects ∪ acc) ∅) ∩
      (update ∪ available.foldr
        (fun a acc => if (update ∩ a.requirements).Nonempty then a.effects ∪ acc
          else acc) ∅)) = ∅)
    (hopp : ∀ p ∈ (state.filter fun p => p ∈ available.foldr
        (fun a acc => a.requirements ∪ a.effects ∪ acc) ∅),
      ∀ q ∈ (state.filter fun p => p ∈ available.foldr
        (fun a acc => a.requirements ∪ a.effects ∪ acc) ∅),
      opposite_effect p ≠ q)
    (n : Nat) :
    plan_state_update (n + 1) state update available = some (.success []) := by
  rw [plan_state_update]
  have hself : ((state.filter fun p => p ∈ available.foldr
      (fun a acc => a.requirements ∪ a.effects ∪ acc) ∅) \
      (update ∪ available.foldr
        (fun a acc => if (update ∩ a.requirements).Nonempty then a.effects ∪ acc
          else acc) ∅)) =
      (state.filter fun p => p ∈ available.foldr
        (fun a acc => a.requirements ∪ a.effects ∪ acc) ∅) := by
    rw [Finset.sdiff_eq_self_iff_disjoint, Finset.disjoint_iff_inter_eq_empty]
    exact hdis
  rw [hself]
  exact plan_goal_in_state _ _ available hnd (Finset.Subset.refl _) hopp n

/-- Witness for C9: an update touching nothing relevant leaves the state
re-achievable by the empty plan. -/
theorem c9_state_update_noop_witness :
    plan_state_update 1 {"s0"} {"zz"} [depAct] = some (.success []) :=
  c9_state_update_noop {"s0"} {"zz"} [depAct] (by decide) (by decide) (by decide) 0

/-- Counterexample for C9 as stated: the update `{u0}` is disjoint from the
state `{s0}`, but the effect `s0` of the action depending on `u0` is
invalidated, the planner is asked to rebuild `s0` from the empty state, the
producing action's requirement `u0` is unreachable, and `plan_state_update`
raises `PlanNotPossible` instead of returning the empty plan. -/
theorem c9_counterexample :
    ({"u0"} : Finset PropositionLabel) ∩ {"s0"} = ∅ ∧
    plan_state_update 1 {"s0"} {"u0"} [depAct] = some .notPossible :=
  ⟨by decide, by decide⟩

/-!  Termination of the driver loop (claim C3).  -/

theorem plan_isSome_iff {fuel : Nat} {state goal : Finset PropositionLabel}
    {available : List Action} :
    (plan fuel state goal available).isSome =
      (planLoop available goal fuel (layer0 state) []).isSome := by
  rw [plan]
  cases h : planLoop available goal fuel (layer0 state) [] with
  | none => rfl
  | some o => cases o <;> rfl

theorem layerSeq_succ (state : Finset PropositionLabel) (available : List Action)
    (n : Nat) :
    layerSeq state available (n + 1) =
      calculate_next_layer (layerSeq state available n) available := rfl

theorem planLoop_isSome_of_fix (state goal : Finset PropositionLabel)
    (available : List Action) :
    ∀ (m i : Nat) (rest : List Layer),
      calculate_next_layer (layerSeq state available (i + m)) available =
        layerSeq state available (i + m) →
      (planLoop available goal (m + 1) (layerSeq state available i) rest).isSome := by
  intro m
  induction m with
  | zero =>
    intro i rest hfix
    rw [Nat.add_zero] at hfix
    rw [planLoop]
    by_cases hg : goal = ∅
    · have hs : search_for_solution
          (calculate_next_layer (layerSeq state available i) available ::
            layerSeq state available i :: rest) goal = .found [] := by
        rw [search_for_solution, if_pos hg]
      rw [hs]
      rfl
    · have hs : search_for_solution
          (calculate_next_layer (layerSeq state available i) available ::
            layerSeq state available i :: rest) goal = .notPossible := by
        rw [search_for_solution, if_neg hg,
          if_pos (by simp [plan_is_stalled, hfix] :
            plan_is_stalled (calculate_next_layer (layerSeq state available i) available ::
              layerSeq state available i :: rest) = true)]
      rw [hs]
      rfl
  | succ m ih =>
    intro i rest hfix
    rw [planLoop]
    cases hs : search_for_solution
        (calculate_next_layer (layerSeq state available i) available ::
          layerSeq state available i :: rest) goal with
    | found p => rfl
    | notPossible => rfl
    | notFound =>
      have harith : (i + 1) + m = i + (m + 1) := by omega
      have hfix2 : calculate_next_layer
          (layerSeq state available ((i + 1) + m)) available =
          layerSeq state available ((i + 1) + m) := by
        rw [harith]
        exact hfix
      have := ih (i + 1) (layerSeq state available i :: rest) hfix2
      exact this

theorem finset_chain_stabilizes {α : Type} [DecidableEq α] (f : Nat → Finset α)
    (B : Finset α) (hmono : ∀ i, f i ⊆ f (i + 1)) (hbound : ∀ i, f i ⊆ B) :
    ∃ k, f k = f (k + 1) := by
  by_contra hne
  push_neg at hne
  have hstrict : ∀ k, f k ⊂ f (k + 1) := fun k =>
    Finset.ssubset_iff_subset_ne.mpr ⟨hmono k, hne k⟩
  have hcard : ∀ k, k ≤ (f k).card := by
    intro k
    induction k with
    | zero => exact Nat.zero_le _
    | succ k ih =>
      have := Finset.card_lt_card (hstrict k)
      omega
  have h1 := hcard (B.card + 1)
  have h2 := Finset.card_le_card (hbound (B.card + 1))
  omega

theorem finset_chain_stabilizes_dec {α : Type} [DecidableEq α] (f : Nat → Finset α)
    (hmono : ∀ i, f (i + 1) ⊆ f i) : ∃ k, f k = f (k + 1) := by
  by_contra hne
  push_neg at hne
  have hstrict : ∀ k, f (k + 1) ⊂ f k := fun k =>
    Finset.ssubset_iff_subset_ne.mpr ⟨hmono k, fun e => hne k e.symm⟩
  have hcard : ∀ k, (f k).card + k ≤ (f 0).card := by
    intro k
    induction k with
    | zero => omega
    | succ k ih =>
      have := Finset.card_lt_card (hstrict k)
      omega
  have := hcard ((f 0).card + 1)
  omega

theorem calculate_actions_congr {L L' : Layer} (available : List Action)
    (h : L.propositions = L'.propositions) :
    calculate_actions L available = calculate_actions L' available := by
  rw [calculate_actions, calculate_actions, h]

theorem calculate_next_layer_congr (available : List Action) {L L' : Layer}
    (hp : L.propositions = L'.propositions)
    (hm : L.mutex_propositions = L'.mutex_propositions) :
    calculate_next_layer L available = calculate_next_layer L' available := by
  show Layer.mk (calculate_actions L available)
      (calculate_propositions (calculate_actions L available))
      (actions_mutex_from L.mutex_propositions (calculate_actions L available))
      (calculate_propositions_mutex (calculate_actions L available)
        (actions_mutex_from L.mutex_propositions (calculate_actions L available))) =
    Layer.mk (calculate_actions L' available)
      (calculate_propositions (calculate_actions L' available))
      (actions_mutex_from L'.mutex_propositions (calculate_actions L' available))
      (calculate_propositions_mutex (calculate_actions L' available)
        (actions_mutex_from L'.mutex_propositions (calculate_actions L' available)))
  rw [calculate_actions_congr available hp, hm]

theorem props_subset_next (L : Layer) (available : List Action) :
    L.propositions ⊆ (calculate_next_layer L available).propositions :=
  fun _ hp => mem_next_propositions hp

theorem props_bounded (L : Layer) (available : List Action) :
    (calculate_next_layer L available).propositions ⊆
      L.propositions ∪ calculate_propositions available := by
  intro p hp
  rw [next_layer_propositions] at hp
  obtain ⟨a, ha, hpe⟩ := mem_calculate_propositions.mp hp
  rcases mem_calculate_actions.mp ha with ⟨q, hq, he⟩ | ⟨ha2, _⟩
  · subst he
    have : p = q := Finset.mem_singleton.mp hpe
    subst this
    exact Finset.mem_union_left _ hq
  · exact Finset.mem_union_right _ (mem_calculate_propositions.mpr ⟨a, ha2, hpe⟩)

theorem layerSeq_props_bounded (state : Finset PropositionLabel)
    (available : List Action) :
    ∀ i, (layerSeq state available i).propositions ⊆
      state ∪ calculate_propositions available := by
  intro i
  induction i with
  | zero => exact fun p hp => Finset.mem_union_left _ hp
  | succ i ih =>
    intro p hp
    rcases Finset.mem_union.mp (props_bounded (layerSeq state available i) available hp)
      with h | h
    · exact ih h
    · exact Finset.mem_union_right _ h

theorem producers_pair_mutex_of_opp {acts : List Action}
    {X : Finset (PropositionLabel × PropositionLabel)} {p q : PropositionLabel}
    (h : opposite_effect p = q ∨ opposite_effect q = p) {a b : Action}
    (ha : a ∈ producers acts p) (hb : b ∈ producers acts q) (hab : a ≠ b) :
    (a, b) ∈ actions_mutex_from X acts := by
  obtain ⟨haacts, hpe⟩ := mem_producers.mp ha
  obtain ⟨hbacts, hqe⟩ := mem_producers.mp hb
  rw [actions_mutex_from_iff hab]
  refine ⟨haacts, hbacts, ?_⟩
  rcases h with h | h
  · left
    rw [is_action_mutex_iff]
    exact Or.inl ⟨q, Finset.mem_inter.mpr ⟨Finset.mem_image.mpr ⟨p, hpe, h⟩, hqe⟩⟩
  · right
    rw [is_action_mutex_iff]
    exact Or.inl ⟨p, Finset.mem_inter.mpr ⟨Finset.mem_image.mpr ⟨q, hqe, h⟩, hpe⟩⟩

theorem mem_mutexStep_iff {acts : List Action}
    {X : Finset (PropositionLabel × PropositionLabel)} {p q : PropositionLabel}
    (hpq : p ≠ q) :
    (p, q) ∈ mutexStep acts X ↔
      ((∃ a ∈ acts, p ∈ a.effects) ∧ (∃ a ∈ acts, q ∈ a.effects) ∧
        ∀ a ∈ producers acts p, ∀ b ∈ producers acts q,
          (a, b) ∈ actions_mutex_from X acts) :=
  calculate_propositions_mutex_iff (fun _ _ h => actions_mutex_from_symm h) hpq

theorem mutexStep_irrefl {acts : List Action}
    {X : Finset (PropositionLabel × PropositionLabel)} (p : PropositionLabel) :
    (p, p) ∉ mutexStep acts X :=
  calculate_propositions_mutex_irrefl p

theorem mutexStep_opp_const {current_state : Layer} {available_actions : List Action}
    {X Y : Finset (PropositionLabel × PropositionLabel)}
    (hnd : available_actions.Nodup)
    (hirrX : ∀ r, (r, r) ∉ X) {p q : PropositionLabel}
    (hopp : opposite_effect p = q ∨ opposite_effect q = p)
    (h : (p, q) ∈ mutexStep (calculate_actions current_state available_actions) X) :
    (p, q) ∈ mutexStep (calculate_actions current_state available_actions) Y := by
  by_cases hpq : p = q
  · subst hpq
    exact absurd h (mutexStep_irrefl p)
  · rw [mem_mutexStep_iff hpq] at h ⊢
    obtain ⟨h1, h2, h3⟩ := h
    refine ⟨h1, h2, ?_⟩
    intro a ha b hb
    by_cases hab : a = b
    · subst hab
      exact absurd (h3 a ha a hb) (actions_mutex_from_irrefl hnd hirrX a)
    · exact producers_pair_mutex_of_opp hopp ha hb hab

theorem mutexStep_defl {current_state : Layer} {available_actions : List Action}
    {X : Finset (PropositionLabel × PropositionLabel)}
    (hP : calculate_propositions (calculate_actions current_state available_actions) ⊆
      current_state.propositions)
    (hsymX : ∀ u v, (u, v) ∈ X → (v, u) ∈ X) {p q : PropositionLabel}
    (hnopp : ¬(opposite_effect p = q ∨ opposite_effect q = p))
    (h : (p, q) ∈ mutexStep (calculate_actions current_state available_actions) X) :
    (p, q) ∈ X := by
  by_cases hpq : p = q
  · exact absurd h (hpq ▸ mutexStep_irrefl p)
  · rw [mem_mutexStep_iff hpq] at h
    obtain ⟨h1, h2, h3⟩ := h
    have hpP : p ∈ current_state.propositions := by
      obtain ⟨a, ha, hpe⟩ := h1
      exact hP (mem_calculate_propositions.mpr ⟨a, ha, hpe⟩)
    have hqP : q ∈ current_state.propositions := by
      obtain ⟨a, ha, hqe⟩ := h2
      exact hP (mem_calculate_propositions.mpr ⟨a, ha, hqe⟩)
    have hpprod : noop_action p ∈
        producers (calculate_actions current_state available_actions) p :=
      mem_producers.mpr ⟨mem_calculate_actions.mpr (Or.inl ⟨p, hpP, rfl⟩),
        Finset.mem_singleton_self p⟩
    have hqprod : noop_action q ∈
        producers (calculate_actions current_state available_actions) q :=
      mem_producers.mpr ⟨mem_calculate_actions.mpr (Or.inl ⟨q, hqP, rfl⟩),
        Finset.mem_singleton_self q⟩
    have hm := h3 _ hpprod _ hqprod
    have hne : noop_action p ≠ noop_action q := fun e => hpq (noop_action_injective e)
    rw [actions_mutex_from_iff hne] at hm
    rcases hm.2.2 with hc | hc
    · rw [is_action_mutex_iff] at hc
      rcases hc with hc | hc | ⟨x, hx, y, hy, hxy⟩
      · obtain ⟨z, hz⟩ := hc
        rw [Finset.mem_inter, Finset.mem_image] at hz
        obtain ⟨⟨w, hw, hwz⟩, hz2⟩ := hz
        have hwp : w = p := Finset.mem_singleton.mp hw
        have hzq : z = q := Finset.mem_singleton.mp hz2
        exact absurd (Or.inl ((hwp ▸ hwz).trans hzq)) hnopp
      · obtain ⟨z, hz⟩ := hc
        rw [Finset.mem_inter, Finset.mem_image] at hz
        obtain ⟨⟨w, hw, hwz⟩, hz2⟩ := hz
        have hwp : w = p := Finset.mem_singleton.mp hw
        have hzq : z = q := Finset.mem_singleton.mp hz2
        exact absurd (Or.inl ((hwp ▸ hwz).trans hzq)) hnopp
      · have hxp : x = p := Finset.mem_singleton.mp hx
        have hyq : y = q := Finset.mem_singleton.mp hy
        rwa [hxp, hyq] at hxy
    · rw [is_action_mutex_iff] at hc
      rcases hc with hc | hc | ⟨x, hx, y, hy, hxy⟩
      · obtain ⟨z, hz⟩ := hc
        rw [Finset.mem_inter, Finset.mem_image] at hz
        obtain ⟨⟨w, hw, hwz⟩, hz2⟩ := hz
        have hwq : w = q := Finset.mem_singleton.mp hw
        have hzp : z = p := Finset.mem_singleton.mp hz2
        exact absurd (Or.inr ((hwq ▸ hwz).trans hzp)) hnopp
      · obtain ⟨z, hz⟩ := hc
        rw [Finset.mem_inter, Finset.mem_image] at hz
        obtain ⟨⟨w, hw, hwz⟩, hz2⟩ := hz
        have hwq : w = q := Finset.mem_singleton.mp hw
        have hzp : z = p := Finset.mem_singleton.mp hz2
        exact absurd (Or.inr ((hwq ▸ hwz).trans hzp)) hnopp
      · have hxq : x = q := Finset.mem_singleton.mp hx
        have hyp : y = p := Finset.mem_singleton.mp hy
        rw [hxq, hyp] at hxy
        exact hsymX _ _ hxy

theorem exists_layer_fixpoint (state : Finset PropositionLabel)
    (available : List Action) (hnd : available.Nodup) :
    ∃ j, calculate_next_layer (layerSeq state available j) available =
      layerSeq state available j := by
  obtain ⟨k, hk⟩ := finset_chain_stabilizes
    (fun i => (layerSeq state available i).propositions)
    (state ∪ calculate_propositions available)
    (fun i => props_subset_next _ _)
    (fun i => layerSeq_props_bounded state available i)
  have hstab : ∀ j, k ≤ j →
      (layerSeq state available j).propositions =
        (layerSeq state available k).propositions := by
    intro j hj
    induction j, hj using Nat.le_induction with
    | base => rfl
    | succ j hj ih =>
      have hstep1 : (layerSeq state available (j + 1)).propositions =
          (layerSeq state available (k + 1)).propositions := by
        show (calculate_next_layer (layerSeq state available j) available).propositions =
          (calculate_next_layer (layerSeq state available k) available).propositions
        rw [next_layer_propositions, next_layer_propositions,
          calculate_actions_congr available ih]
      rw [hstep1, ← hk]
  have hacts : ∀ j, k ≤ j →
      calculate_actions (layerSeq state available j) available =
        calculate_actions (layerSeq state available k) available :=
    fun j hj => calculate_actions_congr available (hstab j hj)
  have hstep : ∀ j, k ≤ j →
      (layerSeq state available (j + 1)).mutex_propositions =
        mutexStep (calculate_actions (layerSeq state available k) available)
          (layerSeq state available j).mutex_propositions := by
    intro j hj
    show (calculate_next_layer (layerSeq state available j) available).mutex_propositions = _
    rw [next_layer_mutex_propositions, calculate_actions_mutex, hacts j hj]
    rfl
  have hPA : calculate_propositions
      (calculate_actions (layerSeq state available k) available) ⊆
      (layerSeq state available k).propositions := by
    intro p hp
    have hmem : p ∈ (layerSeq state available (k + 1)).propositions := by
      show p ∈ (calculate_next_layer (layerSeq state available k) available).propositions
      rw [next_layer_propositions]
      exact hp
    rw [hk]
    exact hmem
  have hirrn : ∀ j, ∀ r, (r, r) ∉ (layerSeq state available j).mutex_propositions := by
    intro j
    cases j with
    | zero => exact fun r => Finset.not_mem_empty _
    | succ i => exact fun r => calculate_propositions_mutex_irrefl r
  have hsymn : ∀ j, 1 ≤ j → ∀ u v,
      (u, v) ∈ (layerSeq state available j).mutex_propositions →
      (v, u) ∈ (layerSeq state available j).mutex_propositions := by
    intro j hj
    cases j with
    | zero => omega
    | succ i => exact fun u v h => calculate_propositions_mutex_symm h
  have hdec : ∀ m, (layerSeq state available (k + m + 3)).mutex_propositions ⊆
      (layerSeq state available (k + m + 2)).mutex_propositions := by
    intro m pq hpq
    obtain ⟨p, q⟩ := pq
    have e3 : k + m + 3 = (k + m + 2) + 1 := by omega
    have e2 : k + m + 2 = (k + m + 1) + 1 := by omega
    rw [e3, hstep (k + m + 2) (by omega)] at hpq
    by_cases hopp : opposite_effect p = q ∨ opposite_effect q = p
    · have hconst := @mutexStep_opp_const (layerSeq state available k) available
        (layerSeq state available (k + m + 2)).mutex_propositions
        (layerSeq state available (k + m + 1)).mutex_propositions
        hnd (hirrn (k + m + 2)) p q hopp hpq
      rw [e2, hstep (k + m + 1) (by omega)]
      exact hconst
    · exact mutexStep_defl hPA (hsymn (k + m + 2) (by omega)) hopp hpq
  obtain ⟨m, hm⟩ := finset_chain_stabilizes_dec
    (fun m => (layerSeq state available (k + m + 2)).mutex_propositions)
    (by
      intro i
      have e : k + (i + 1) + 2 = k + i + 3 := by omega
      show (layerSeq state available (k + (i + 1) + 2)).mutex_propositions ⊆
        (layerSeq state available (k + i + 2)).mutex_propositions
      rw [e]
      exact hdec i)
  refine ⟨k + m + 3, ?_⟩
  have hprops : (layerSeq state available (k + m + 3)).propositions =
      (layerSeq state available (k + m + 2)).propositions := by
    rw [hstab (k + m + 3) (by omega), hstab (k + m + 2) (by omega)]
  have hmp : (layerSeq state available (k + m + 3)).mutex_propositions =
      (layerSeq state available (k + m + 2)).mutex_propositions := by
    have e : k + (m + 1) + 2 = k + m + 3 := by omega
    rw [← e]
    exact hm.symm
  rw [calculate_next_layer_congr available hprops hmp]
  have e3 : k + m + 3 = (k + m + 2) + 1 := by omega
  rw [e3]
  exact (layerSeq_succ state available (k + m + 2)).symm

/-- Claim C3: for every state, goal, and duplicate-free action set, the driver
loop of `Planner.plan` terminates: some amount of fuel makes it return a
verdict — a plan, or `PlanNotPossible` raised when two successive layers
become equal.  The proof shows the layer sequence reaches a layer that
`calculate_next_layer` maps to itself: the proposition sets grow inside a
fixed bound and then stabilize, after which the proposition-mutex relations
form a sequence whose contradictory-pair entries are constant and whose other
entries only shrink. -/
theorem c3_plan_terminates (state goal : Finset PropositionLabel)
    (available : List Action) (hnd : available.Nodup) :
    ∃ n, (plan n state goal available).isSome := by
  obtain ⟨j, hfix⟩ := exists_layer_fixpoint state available hnd
  refine ⟨j + 1, ?_⟩
  rw [plan_isSome_iff]
  exact planLoop_isSome_of_fix state goal available j 0 [] (by simpa using hfix)

/-- Witness for C3: a concrete unreachable goal, detected in finite fuel. -/
theorem c3_plan_terminates_witness :
    ([] : List Action).Nodup ∧ ∃ n, (plan n {"a"} {"b"} []).isSome :=
  ⟨List.nodup_nil, c3_plan_terminates {"a"} {"b"} [] List.nodup_nil⟩

end GraphPlan
